import Mathlib

/-!
Verification of the apworld manager core (`apworld_manager.py`).

This file gives a shallow embedding, in Lean 4, of the data model and the
operations of the apworld package manager: the local file cache and its
refresh logic (`Cache.refresh_files`), the release-ingestion step of
`Cache.refresh_repo` (digest parsing, timestamp selection, rate-limit
handling), the persisted cache document (`Cache.save` / `Cache.__init__`),
and the `do_list` / `do_update` workflows.  Python dicts are embedded as
association lists with dict-style update semantics, Python ints and floats
used only as opaque timestamps are embedded as `Int`, optional values as
`Option`, and fatal `sys.exit` / uncaught exceptions as `Except String`.
All definitions are executable; the theorems at the end of the file settle
the specification claims against this embedding.
-/

deriving instance DecidableEq for Except

/-- Byte-wise (code-point) comparison of characters, the order Python uses
when comparing strings. -/
def charLtB (a b : Char) : Bool := a.toNat < b.toNat

/-- Lexicographic less-or-equal on character lists by code point; this is
exactly Python's `<=` on strings. -/
def listLeB : List Char → List Char → Bool
  | [], _ => true
  | _ :: _, [] => false
  | a :: as, b :: bs =>
    if a.toNat < b.toNat then true
    else if b.toNat < a.toNat then false
    else listLeB as bs

/-- Python string `<=` (lexicographic by code point). -/
def strLeB (a b : String) : Bool := listLeB a.toList b.toList

/-- Python `max` of two strings under lexicographic order. -/
def strMax (a b : String) : String := if strLeB a b then b else a

/-- Python `sorted` on a list of strings, embedded as an insertion sort by
code-point order. -/
def sortedStrings (l : List String) : List String := List.insertionSort (fun a b => strLeB a b) l

/-- Sort an association list by key, as `json.dump(..., sort_keys=True)`
does to every object it writes. -/
def sortByKey {α : Type} (m : List (String × α)) : List (String × α) :=
  List.insertionSort (fun a b => strLeB a.1 b.1) m

/-- Python dict assignment `m[k] = v`: replace the value if the key is
present, otherwise append the new binding (dicts preserve insertion
order). -/
def dictSet {α : Type} (m : List (String × α)) (k : String) (v : α) : List (String × α) :=
  if (List.lookup k m).isSome then
    m.map (fun p => if p.1 == k then (k, v) else p)
  else m ++ [(k, v)]

/-- Python `del m[k]` (and `set.discard`): drop every binding of key `k`. -/
def dictErase {α : Type} (m : List (String × α)) (k : String) : List (String × α) :=
  m.filter (fun p => p.1 ≠ k)

/-- Lookup through an optional key: Python `m.get(k)` where `k` itself may
be `None` (a `None` key is never present in the string-keyed dicts). -/
def optLookup {α : Type} (k : Option String) (m : List (String × α)) : Option α :=
  match k with
  | some s => List.lookup s m
  | none => none

/-- Record of one local file: stat fingerprint plus content digest
(dataclass `CachedFile`). -/
structure CachedFile where
  mtime : Int
  size : Int
  inode : Int
  sha256_hex : String
deriving DecidableEq, Repr

/-- One downloadable release asset (dataclass `Asset`); the digest is
absent when the publisher did not provide one. -/
structure Asset where
  size : Int
  sha256_hex : Option String
deriving DecidableEq, Repr

/-- One release (dataclass `Release`); `assets` embeds the Python dict
mapping asset name to asset. -/
structure Release where
  tag_name : String
  timestamp : String
  name : String
  body : String
  assets : List (String × Asset)
deriving DecidableEq, Repr

/-- Cached state of one repository (dataclass `CachedRepo`): releases are
ordered most recent first. -/
structure CachedRepo where
  last_checked : Int
  releases : List Release
deriving DecidableEq, Repr

/-- The aggregate cache (class `Cache`): the local-file map and the
remote-repo map. -/
structure Cache where
  files : List (String × CachedFile)
  repos : List (String × CachedRepo)
deriving DecidableEq, Repr

/-- One configured world (dataclass `WorldConfig`): three optional fields,
exactly as in the source. -/
structure WorldConfig where
  github_user_and_repo : Option String
  github_repo_asset : Option String
  manual_file_name : Option String
deriving DecidableEq, Repr

/-- The asset-vs-local-file comparison of `do_list` (lines 81-84): match
iff the asset digest equals the local digest, or the asset has no digest
and the sizes agree.  A digest-less asset never equals the local digest
because Python's `None == str` is `False`. -/
def assetMatches (cached_file : CachedFile) (asset : Asset) : Bool :=
  asset.sha256_hex == some cached_file.sha256_hex ||
    (asset.sha256_hex == none && asset.size == cached_file.size)

/-- The release scan of `do_list` (lines 74-91).  `newer_versions`
accumulates releases that contain the asset but do not match, exactly as
the Python list does; a release lacking the asset is skipped via the
`KeyError` branch. -/
def listScan (asset_key : Option String) (cached_file : CachedFile) :
    List Release → List Release → String × String
  | [], _ => ("", "unknown version")
  | release :: rest, newer_versions =>
    match optLookup asset_key release.assets with
    | none => listScan asset_key cached_file rest newer_versions
    | some asset =>
      if assetMatches cached_file asset then
        (release.tag_name, if newer_versions.length = 0 then "up to date" else "update available")
      else
        listScan asset_key cached_file rest (newer_versions ++ [release])

/-- Classification of a repo-sourced world in `do_list` (lines 72-98),
covering the four presence/absence combinations of the local file record
and the cached repo record. -/
def classifyRepoWorld (asset_key : Option String) (cached_file : Option CachedFile)
    (cached_repo : Option CachedRepo) : String × String :=
  match cached_file, cached_repo with
  | some cf, some repo => listScan asset_key cf repo.releases []
  | none, some _ => ("", "(not downloaded)")
  | some _, none => ("", "(never checked)")
  | none, none => ("", "(not downloaded, never checked)")

/-- True when the release carries an asset of the configured name. -/
def hasAsset (asset_key : Option String) (r : Release) : Bool :=
  (optLookup asset_key r.assets).isSome

/-- True when the release carries an asset of the configured name and that
asset matches the local file by digest or (digest-less) by size. -/
def releaseMatches (asset_key : Option String) (cf : CachedFile) (r : Release) : Bool :=
  match optLookup asset_key r.assets with
  | some a => assetMatches cf a
  | none => false

/-- Character class `[0-9a-f]` of the digest regex. -/
def hexLower (c : Char) : Bool :=
  (('0').toNat ≤ c.toNat && c.toNat ≤ ('9').toNat) ||
    (('a').toNat ≤ c.toNat && c.toNat ≤ ('f').toNat)

/-- The literal characters of the prefix `sha256:` in the digest regex. -/
def sha256Tag : List Char := ['s', 'h', 'a', '2', '5', '6', ':']

/-- Embedding of `re.match(r'^sha256:([0-9a-f]{64})$', s)` on the character
list of `s`: the anchored pattern matches `sha256:` followed by exactly 64
lowercase hex digits, where the final `$` also tolerates one trailing
newline; the returned value is capture group 1. -/
def sha256DigestCore (cs : List Char) : Option (List Char) :=
  if cs.take 7 = sha256Tag then
    let rest := cs.drop 7
    if rest.length = 64 && rest.all hexLower then some rest
    else if rest.length = 65 && rest.getLast? == some '\n' && (rest.take 64).all hexLower then
      some (rest.take 64)
    else none
  else none

/-- String-level wrapper of the digest regex match. -/
def parseSha256Digest (s : String) : Option String :=
  (sha256DigestCore s.toList).map fun cs => String.mk cs

/-- The `re_match` helper applied to the digest pattern: a match returns
capture group 1; no match raises `ValueError` (here: an error value whose
message approximates the Python `repr`-formatted one). -/
def reMatchSha256 (s : String) : Except String String :=
  match parseSha256Digest s with
  | some h => .ok h
  | none =>
    .error ("expected string to match regex: '^sha256:([0-9a-f]\x7b64\x7d)$', found: '" ++ s ++ "'")

/-- Raw asset object of the releases API response: name, size, and the
optional digest field. -/
structure AssetInfo where
  name : String
  size : Int
  digest : Option String
deriving DecidableEq, Repr

/-- Ingestion of one asset (lines 414-417): a missing or empty digest
field yields a digest-absent asset; otherwise the digest field must match
the sha256 regex, and a failed match propagates as an error. -/
def ingestAsset (info : AssetInfo) : Except String Asset :=
  match info.digest with
  | none => .ok { size := info.size, sha256_hex := none }
  | some d =>
    if d = "" then .ok { size := info.size, sha256_hex := none }
    else
      match reMatchSha256 d with
      | .ok h => .ok { size := info.size, sha256_hex := some h }
      | .error e => .error e

/-- The asset dict comprehension of `refresh_repo` (lines 413-419),
building the name-keyed asset dict left to right; the first failing digest
parse aborts the whole ingestion. -/
def ingestAssets (acc : List (String × Asset)) : List AssetInfo → Except String (List (String × Asset))
  | [] => .ok acc
  | info :: rest =>
    match ingestAsset info with
    | .error e => .error e
    | .ok a => ingestAssets (dictSet acc info.name a) rest

/-- Raw release object of the releases API response.  `created_at` is
accessed unconditionally by the code; the other metadata fields are read
with `.get(..., None) or ""`. -/
structure ReleaseInfo where
  tag_name : String
  created_at : String
  updated_at : Option String
  published_at : Option String
  name : Option String
  body : Option String
  assets : List AssetInfo
deriving DecidableEq, Repr

/-- Python `x or ""` on an optional string: `None` (and the empty string
itself) becomes `""`. -/
def orEmpty (o : Option String) : String :=
  match o with
  | some s => s
  | none => ""

/-- Ingestion of one release (lines 403-420): the stored timestamp is
`sorted([created, updated or "", published or ""])[-1]`. -/
def ingestRelease (info : ReleaseInfo) : Except String Release :=
  match ingestAssets [] info.assets with
  | .error e => .error e
  | .ok assets =>
    .ok { tag_name := info.tag_name,
          timestamp := (sortedStrings
            [info.created_at, orEmpty info.updated_at, orEmpty info.published_at]).getLastD "",
          name := orEmpty info.name,
          body := orEmpty info.body,
          assets := assets }

/-- Python `"{:0>2}".format(n)`: left-pad the decimal rendering with zeros
to width two. -/
def pad2 (n : Int) : String :=
  String.mk (List.replicate (2 - (toString n).length) '0') ++ toString n

/-- The `format_time` helper (lines 451-457); Python `//` and `%` are
floor division and nonnegative remainder, i.e. `Int.ediv` / `Int.emod`
for the positive divisors used here. -/
def format_time (seconds : Int) : String :=
  if seconds < 60 then toString seconds ++ "s"
  else if seconds < 3600 then
    toString (seconds.ediv 60) ++ "m" ++ pad2 (seconds.emod 60) ++ "s"
  else
    toString (seconds.ediv 3600) ++ "h" ++ pad2 ((seconds.emod 3600).ediv 60) ++ "m" ++
      pad2 (seconds.emod 60) ++ "s"

/-- The fatal rate-limit report of `refresh_repo` (line 400). -/
def rateLimitMessage (wait_time : Int) : String :=
  "ERROR: github is rate limiting us. we need to wait " ++ format_time wait_time ++
    " before trying again"

/-- One transport response during the paged fetch of `refresh_repo`:
either a page of release objects with an optional next-page link, or an
HTTP error with its status and rate-limit headers. -/
inductive PageResponse where
  | ok (body : List ReleaseInfo) (next : Option String)
  | err (status : Nat) (ratelimit_remaining : Option String) (ratelimit_reset : Int)
deriving DecidableEq, Repr

/-- The page-fetch loop of `refresh_repo` (lines 380-401), driven by the
successive transport responses.  An ok page is appended and the loop
continues while a "next" link is present; an HTTP error with status
403/429 and a zero remaining-quota header terminates fatally
(`.error (some msg)`, the `sys.exit` report) without consuming any further
response, and any other error propagates unhandled (`.error none`, an
uncaught exception — also the model of the transport yielding nothing). -/
def fetchAllPages (now : Int) : List PageResponse → Except (Option String) (List ReleaseInfo)
  | [] => .error none
  | .ok body next :: rest =>
    match next with
    | none => .ok body
    | some _ =>
      match fetchAllPages now rest with
      | .ok more => .ok (body ++ more)
      | .error e => .error e
  | .err status remaining reset :: _ =>
    if (status == 403 || status == 429) && remaining == some "0" then
      .error (some (rateLimitMessage (reset - now)))
    else .error none

/-- One row of the table printed by `do_list`. -/
structure ListRow where
  world_name : String
  version : String
  status : String
deriving DecidableEq, Repr

/-- The per-world loop of `do_list` (lines 62-106).  The second-to-last
argument threads the Python local variable `cached_file` across loop
iterations: `none` means the variable has never been assigned (so reading
it raises `UnboundLocalError`), and the manually-managed branch reads it
without assigning it — exactly as the source does. -/
def doListLoop (cache : Cache) (apworld_names_set : List String) :
    List (String × WorldConfig) → Option (Option CachedFile) → List String →
    Except String (List ListRow × List String)
  | [], _, orphaned_files => .ok ([], orphaned_files)
  | (world_name, world_config) :: rest, cached_file_var, orphaned_files =>
    if apworld_names_set.length > 0 && !(apworld_names_set.contains world_name) then
      doListLoop cache apworld_names_set rest cached_file_var orphaned_files
    else
      match world_config.github_user_and_repo with
      | some user_and_repo =>
        let cached_repo := List.lookup user_and_repo cache.repos
        let cached_file := optLookup world_config.github_repo_asset cache.files
        let orphaned2 := match world_config.github_repo_asset with
          | some a => orphaned_files.filter (fun f => f ≠ a)
          | none => orphaned_files
        let vs := classifyRepoWorld world_config.github_repo_asset cached_file cached_repo
        match doListLoop cache apworld_names_set rest (some cached_file) orphaned2 with
        | .error e => .error e
        | .ok (rows, orph) => .ok (⟨world_name, vs.1, vs.2⟩ :: rows, orph)
      | none =>
        match world_config.manual_file_name with
        | some manual_file_name =>
          match cached_file_var with
          | none => .error "UnboundLocalError: cached_file"
          | some none =>
            match doListLoop cache apworld_names_set rest (some none) orphaned_files with
            | .error e => .error e
            | .ok (rows, orph) =>
              .ok (⟨world_name, "", "manual file missing from disk"⟩ :: rows, orph)
          | some (some cf) =>
            match doListLoop cache apworld_names_set rest (some (some cf))
                (orphaned_files.filter (fun f => f ≠ manual_file_name)) with
            | .error e => .error e
            | .ok (rows, orph) => .ok (⟨world_name, "", "(manually managed)"⟩ :: rows, orph)
        | none => .error "AssertionError"

/-- The `do_list` operation (lines 61-121): classify every in-scope world,
then — only under an unrestricted scope — append a "not listed in config"
row for each remaining orphaned file, in sorted order.  (The column-width
pretty-printing is presentation only and is not modelled.) -/
def do_list (config : List (String × WorldConfig)) (cache : Cache)
    (apworld_names_set : List String) : Except String (List ListRow) :=
  match doListLoop cache apworld_names_set config none (cache.files.map Prod.fst) with
  | .error e => .error e
  | .ok (rows, orphaned_files) =>
    if apworld_names_set.length = 0 then
      .ok (rows ++ (sortedStrings orphaned_files).map (fun f => ⟨f, "", "not listed in config"⟩))
    else .ok rows

/-- The stat fields `refresh_files` consults (`os.stat_result`). -/
structure FileStat where
  st_mtime : Int
  st_size : Int
  st_ino : Int
deriving DecidableEq, Repr

/-- One entry of the directory scan (`os.scandir`): the file name, its
current stat values, and the SHA-256 of its current content (what hashing
the file would produce). -/
structure DirEntry where
  name : String
  stat : FileStat
  content_sha256 : String
deriving DecidableEq, Repr

/-- The `load_cached_file` helper (lines 424-437): stat fields plus the
content digest, computed by chunked hashing of the file — the directory
model carries that digest as `content_sha256`. -/
def load_cached_file (e : DirEntry) : CachedFile :=
  ⟨e.stat.st_mtime, e.stat.st_size, e.stat.st_ino, e.content_sha256⟩

/-- The ignore rule of `refresh_files` (line 339):
`name.startswith(("_", "."))`. -/
def is_hidden (name : String) : Bool :=
  match name.toList with
  | [] => false
  | c :: _ => c == '_' || c == '.'

/-- The stat-fast-path test of `refresh_files` (lines 349-353): mtime,
size and inode all unchanged. -/
def stat_matches (expected : CachedFile) (stat : FileStat) : Bool :=
  expected.mtime == stat.st_mtime && expected.size == stat.st_size &&
    expected.inode == stat.st_ino

/-- State of `refresh_files` while scanning: the file dict, the
`outstanding_keys` set, the `dirty` flag, and — as instrumentation for the
claims — the names whose digest was recomputed by `load_cached_file`
during this refresh. -/
structure RefreshState where
  files : List (String × CachedFile)
  outstanding_keys : List String
  dirty : Bool
  rehashed : List String
deriving DecidableEq, Repr

/-- One iteration of the scan loop of `refresh_files` (lines 335-357):
hidden names are skipped; a name with no record is hashed and inserted; a
name whose record matches the current stat keeps its record (the
self-assignment `self.files[name] = expected`); otherwise the file is
re-hashed and the record replaced.  Found names leave `outstanding_keys`. -/
def refresh_step (st : RefreshState) (e : DirEntry) : RefreshState :=
  if is_hidden e.name then st
  else
    match List.lookup e.name st.files with
    | none =>
      { files := dictSet st.files e.name (load_cached_file e),
        outstanding_keys := st.outstanding_keys,
        dirty := true,
        rehashed := st.rehashed ++ [e.name] }
    | some expected =>
      if stat_matches expected e.stat then
        { files := dictSet st.files e.name expected,
          outstanding_keys := st.outstanding_keys.filter (fun x => x ≠ e.name),
          dirty := st.dirty,
          rehashed := st.rehashed }
      else
        { files := dictSet st.files e.name (load_cached_file e),
          outstanding_keys := st.outstanding_keys.filter (fun x => x ≠ e.name),
          dirty := true,
          rehashed := st.rehashed ++ [e.name] }

/-- The whole `Cache.refresh_files` (lines 332-362): scan every directory
entry, then delete every record whose file was not seen (the
`outstanding_keys` loop); the final save happens iff anything changed. -/
def refresh_files (files0 : List (String × CachedFile)) (entries : List DirEntry) :
    RefreshState :=
  let st := entries.foldl refresh_step ⟨files0, files0.map Prod.fst, false, []⟩
  { files := st.outstanding_keys.foldl dictErase st.files,
    outstanding_keys := st.outstanding_keys,
    dirty := st.dirty || !st.outstanding_keys.isEmpty,
    rehashed := st.rehashed }

/-- The record `refresh_files` ends up holding for a scanned non-hidden
file: the old record if the stat fingerprint matches, a freshly hashed one
otherwise. -/
def new_val (files0 : List (String × CachedFile)) (e : DirEntry) : CachedFile :=
  match List.lookup e.name files0 with
  | some c => if stat_matches c e.stat then c else load_cached_file e
  | none => load_cached_file e

/-- Whether `refresh_files` recomputes the digest of a scanned non-hidden
file: yes iff it has no record or the stat fingerprint changed. -/
def rehashes (files0 : List (String × CachedFile)) (e : DirEntry) : Bool :=
  match List.lookup e.name files0 with
  | some c => ! stat_matches c e.stat
  | none => true

/-- Whether some non-hidden scanned entry has the given name. -/
def scannedB (entries : List DirEntry) (k : String) : Bool :=
  entries.any (fun e => !is_hidden e.name && e.name == k)

/-- The scan-loop fold of `refresh_files`, before the deletion of
outstanding keys. -/
def refresh_fold (files0 : List (String × CachedFile)) (l : List DirEntry) : RefreshState :=
  l.foldl refresh_step ⟨files0, files0.map Prod.fst, false, []⟩

/-- One download performed by `do_update`: the constituents of the release
download URL (lines 185-189). -/
structure Download where
  user_and_repo : String
  tag_name : String
  asset_name : String
deriving DecidableEq, Repr

/-- The asset-vs-local comparison of `do_update` (lines 166-171): `False`
when no local file record exists (`cached_file != None and (...)`). -/
def matchesLocal (asset : Asset) (cached_file : Option CachedFile) : Bool :=
  match cached_file with
  | none => false
  | some f =>
    asset.sha256_hex == some f.sha256_hex ||
      (asset.sha256_hex == none && asset.size == f.size)

/-- The first release (newest-first) carrying the named asset, with that
asset; `none` when no release contains it. -/
def first_with_asset (asset_name : String) : List Release → Option (Asset × Release)
  | [] => none
  | release :: rest =>
    match List.lookup asset_name release.assets with
    | none => first_with_asset asset_name rest
    | some asset => some (asset, release)

/-- The release scan of `do_update` (lines 159-176): a release lacking the
asset is skipped (`KeyError` branch); the FIRST release containing the
asset decides — `(True, release)` when it matches the local record (the
`up_to_date` break), `(False, release)` otherwise (the unconditional
`break` that downloads this release); `none` models the `for`-`else`
fatal "asset not found in any release". -/
def update_scan (asset_name : String) (cached_file : Option CachedFile) :
    List Release → Option (Bool × Release)
  | [] => none
  | release :: rest =>
    match List.lookup asset_name release.assets with
    | none => update_scan asset_name cached_file rest
    | some asset => some (matchesLocal asset cached_file, release)

/-- Python line 148: a world is in scope when no names were given or its
name was given. -/
def world_in_scope (apworld_names_set : List String) (world_name : String) : Bool :=
  !(apworld_names_set.length > 0 && !(apworld_names_set.contains world_name))

/-- What one iteration of the `do_update` loop does for one world. -/
inductive ItemAction where
  | skip
  | discard (k : String)
  | fetchItem (asset_name : String) (d : Option Download)
  | fail (msg : String)
deriving DecidableEq, Repr

/-- The per-world decision of the `do_update` loop body (lines 148-198):
out-of-scope worlds are skipped; a manually-managed world only discards
its file from the orphan set; a repo world requires its repo in the cache
(`run 'check' first` — a config with `github_user_and_repo = None` hits
the same `KeyError` exit), scans for the first release containing the
asset (a `None` asset name matches no release, reaching the same fatal
`for`-`else` exit), and either is up to date or downloads that release. -/
def process_world (cache : Cache) (apworld_names_set : List String)
    (p : String × WorldConfig) : ItemAction :=
  if world_in_scope apworld_names_set p.1 then
    match p.2.manual_file_name with
    | some manual_file_name => .discard manual_file_name
    | none =>
      match p.2.github_user_and_repo with
      | none => .fail "ERROR: run 'check' first"
      | some user_and_repo =>
        match List.lookup user_and_repo cache.repos with
        | none => .fail "ERROR: run 'check' first"
        | some cached_repo =>
          match p.2.github_repo_asset with
          | none => .fail "ERROR: asset name not found in any release"
          | some asset_name =>
            match update_scan asset_name (List.lookup asset_name cache.files)
                cached_repo.releases with
            | none => .fail "ERROR: asset name not found in any release"
            | some (up_to_date, release) =>
              if up_to_date then .fetchItem asset_name none
              else .fetchItem asset_name (some ⟨user_and_repo, release.tag_name, asset_name⟩)
  else .skip

/-- The world loop of `do_update` (lines 147-198), threading the orphan
set and the download list.  A repo world discards its asset name from the
orphan set whether or not it downloads; failures abort the run. -/
def update_loop (cache : Cache) (apworld_names_set : List String) :
    List (String × WorldConfig) → List String → List Download →
    Except String (List String × List Download)
  | [], orphaned_files, downloads => .ok (orphaned_files, downloads)
  | p :: rest, orphaned_files, downloads =>
    match process_world cache apworld_names_set p with
    | .skip => update_loop cache apworld_names_set rest orphaned_files downloads
    | .discard k =>
      update_loop cache apworld_names_set rest (orphaned_files.filter (fun f => f ≠ k)) downloads
    | .fetchItem asset_name d =>
      update_loop cache apworld_names_set rest (orphaned_files.filter (fun f => f ≠ asset_name))
        (downloads ++ d.toList)
    | .fail e => .error e

/-- Result of one `do_update` run.  `files_after` is the on-disk state a
subsequent invocation's refresh would see: every downloaded asset name now
holds the record `fetch` yields for that download (fresh stat fields plus
the true content digest of the downloaded bytes), and the deleted orphans
are gone. -/
structure UpdateOutcome where
  downloads : List Download
  deleted : List String
  files_after : List (String × CachedFile)
deriving DecidableEq, Repr

/-- Apply the downloads to the on-disk file map, in order (lines 184-198);
`fetch` models what `urlopen` + hashing of the downloaded bytes yields. -/
def apply_downloads (fetch : String → String → String → CachedFile)
    (files : List (String × CachedFile)) (downloads : List Download) :
    List (String × CachedFile) :=
  downloads.foldl
    (fun m d => dictSet m d.asset_name (fetch d.user_and_repo d.tag_name d.asset_name)) files

/-- The whole `do_update` (lines 144-211): run the world loop over a
snapshot of the file-cache keys as the orphan set; afterwards — only under
an unrestricted scope — delete the remaining orphans in sorted order
(lines 207-211).  The orphan set is drawn from the cache keys, never from
a directory listing. -/
def do_update (config : List (String × WorldConfig)) (cache : Cache)
    (apworld_names_set : List String) (fetch : String → String → String → CachedFile) :
    Except String UpdateOutcome :=
  match update_loop cache apworld_names_set config (cache.files.map Prod.fst) [] with
  | .error e => .error e
  | .ok (orphaned_files, downloads) =>
    .ok { downloads := downloads,
          deleted := if apworld_names_set.length = 0 then sortedStrings orphaned_files else [],
          files_after :=
            (if apworld_names_set.length = 0 then sortedStrings orphaned_files else []).foldl
              dictErase (apply_downloads fetch cache.files downloads) }

/-- Whether processing this world removes the key from the orphan set. -/
def world_discard (cache : Cache) (apworld_names_set : List String)
    (p : String × WorldConfig) (k : String) : Bool :=
  match process_world cache apworld_names_set p with
  | .discard m => k == m
  | .fetchItem a _ => k == a
  | _ => false

/-- The download this world contributes, if any. -/
def world_download_plan (cache : Cache) (apworld_names_set : List String)
    (p : String × WorldConfig) : Option Download :=
  match process_world cache apworld_names_set p with
  | .fetchItem _ d => d
  | _ => none

/-- Whether a tracked item references the file name, as a configured repo
asset name or a manual file name. -/
def references (wc : WorldConfig) (k : String) : Bool :=
  wc.github_repo_asset == some k || wc.manual_file_name == some k

/-- The asset name an in-scope, non-manual world contributes to the update
scope (`none` for manual or out-of-scope worlds). -/
def scope_asset_of (scope : List String) (p : String × WorldConfig) : Option String :=
  if world_in_scope scope p.1 && p.2.manual_file_name == none then p.2.github_repo_asset
  else none

/-- The asset names of all in-scope repo-sourced worlds, in config order. -/
def scope_assets (scope : List String) (config : List (String × WorldConfig)) : List String :=
  config.filterMap (scope_asset_of scope)

/-- Consistency of release metadata with downloaded content: a download of
a published asset yields a file whose digest equals the asset's declared
digest, and — when no digest was published — whose size equals the
declared size.  This is the implicit assumption under which re-running the
update can recognise its own downloads. -/
def fetch_consistentB (repos : List (String × CachedRepo))
    (fetch : String → String → String → CachedFile) : Bool :=
  repos.all (fun kr => kr.2.releases.all (fun r => r.assets.all (fun pa =>
    match pa.2.sha256_hex with
    | some h => (fetch kr.1 r.tag_name pa.1).sha256_hex == h
    | none => (fetch kr.1 r.tag_name pa.1).size == pa.2.size)))

@[reducible]
def fetch_consistent (repos : List (String × CachedRepo))
    (fetch : String → String → String → CachedFile) : Prop :=
  fetch_consistentB repos fetch = true

/-- The JSON documents `Cache.save` writes and `Cache.__init__` reads.
Numbers are embedded as `Int` (the float `mtime`/`last_checked` fields are
opaque timestamps: only equality and JSON round-tripping are used, and
Python's `json` round-trips numbers losslessly). -/
inductive Json where
  | null : Json
  | num : Int → Json
  | str : String → Json
  | arr : List Json → Json
  | obj : List (String × Json) → Json

/-- Encoding of an optional digest: Python `None` becomes JSON `null`. -/
def enc_opt_str : Option String → Json
  | none => .null
  | some s => .str s

/-- Encoding of a `CachedFile.__dict__`; `sort_keys=True` orders the
fields alphabetically, so they are written pre-sorted here. -/
def enc_cached_file (f : CachedFile) : Json :=
  .obj [("inode", .num f.inode), ("mtime", .num f.mtime),
        ("sha256_hex", .str f.sha256_hex), ("size", .num f.size)]

/-- Encoding of an `Asset.__dict__` (fields in sorted order). -/
def enc_asset (a : Asset) : Json :=
  .obj [("sha256_hex", enc_opt_str a.sha256_hex), ("size", .num a.size)]

/-- Encoding of a `Release.__dict__` (fields in sorted order); the asset
dict's keys are sorted by `sort_keys=True`. -/
def enc_release (r : Release) : Json :=
  .obj [("assets", .obj ((sortByKey r.assets).map (fun p => (p.1, enc_asset p.2)))),
        ("body", .str r.body), ("name", .str r.name),
        ("tag_name", .str r.tag_name), ("timestamp", .str r.timestamp)]

/-- Encoding of a `CachedRepo.__dict__` (fields in sorted order); the
release list's order is preserved. -/
def enc_cached_repo (c : CachedRepo) : Json :=
  .obj [("last_checked", .num c.last_checked), ("releases", .arr (c.releases.map enc_release))]

/-- The document `Cache.save` (lines 310-330) writes: a "files" object and
a "repos" object, with every object's keys sorted by `sort_keys=True`. -/
def cache_save (c : Cache) : Json :=
  .obj [("files", .obj ((sortByKey c.files).map (fun p => (p.1, enc_cached_file p.2)))),
        ("repos", .obj ((sortByKey c.repos).map (fun p => (p.1, enc_cached_repo p.2))))]

/-- Decode every value of a JSON object into an association list, in
document order (the `.items()` loops of `Cache.__init__`). -/
def dec_pairs {α : Type} (f : Json → Option α) : List (String × Json) → Option (List (String × α))
  | [] => some []
  | (k, j) :: rest =>
    match f j, dec_pairs f rest with
    | some v, some vs => some ((k, v) :: vs)
    | _, _ => none

/-- Decode every element of a JSON array. -/
def dec_list {α : Type} (f : Json → Option α) : List Json → Option (List α)
  | [] => some []
  | j :: rest =>
    match f j, dec_list f rest with
    | some v, some vs => some (v :: vs)
    | _, _ => none

/-- Decoding `CachedFile(**info)`: exactly the four dataclass fields, with
their declared types. -/
def dec_cached_file : Json → Option CachedFile
  | .obj l =>
    match List.lookup "mtime" l, List.lookup "size" l, List.lookup "inode" l,
        List.lookup "sha256_hex" l with
    | some (.num mt), some (.num sz), some (.num ino), some (.str h) =>
      if l.length = 4 then some ⟨mt, sz, ino, h⟩ else none
    | _, _, _, _ => none
  | _ => none

/-- Decoding `Asset(**asset_info)`: size plus a digest that is either
`null` (absent) or a string. -/
def dec_asset : Json → Option Asset
  | .obj l =>
    match List.lookup "size" l, List.lookup "sha256_hex" l with
    | some (.num sz), some .null => if l.length = 2 then some ⟨sz, none⟩ else none
    | some (.num sz), some (.str h) => if l.length = 2 then some ⟨sz, some h⟩ else none
    | _, _ => none
  | _ => none

/-- Decoding `Release(**{**release_info, "assets": {...}})`. -/
def dec_release : Json → Option Release
  | .obj l =>
    match List.lookup "tag_name" l, List.lookup "timestamp" l, List.lookup "name" l,
        List.lookup "body" l, List.lookup "assets" l with
    | some (.str tn), some (.str ts), some (.str nm), some (.str bd), some (.obj aj) =>
      match dec_pairs dec_asset aj with
      | some assets => if l.length = 5 then some ⟨tn, ts, nm, bd, assets⟩ else none
      | none => none
    | _, _, _, _, _ => none
  | _ => none

/-- Decoding `CachedRepo(**{**repo_info, "releases": [...]})`. -/
def dec_cached_repo : Json → Option CachedRepo
  | .obj l =>
    match List.lookup "last_checked" l, List.lookup "releases" l with
    | some (.num lc), some (.arr rl) =>
      match dec_list dec_release rl with
      | some rels => if l.length = 2 then some ⟨lc, rels⟩ else none
      | none => none
    | _, _ => none
  | _ => none

/-- Python `j.get(k)` on the top-level document. -/
def jget (j : Json) (k : String) : Option Json :=
  match j with
  | .obj l => List.lookup k l
  | _ => none

/-- The document reader of `Cache.__init__` (lines 286-308):
`j.get("files", {})` and `j.get("repos", {})`, then per-entry dataclass
construction. -/
def cache_load (j : Json) : Option Cache :=
  match j with
  | .obj _ =>
    match (jget j "files").getD (.obj []), (jget j "repos").getD (.obj []) with
    | .obj fl, .obj rl =>
      match dec_pairs dec_cached_file fl, dec_pairs dec_cached_repo rl with
      | some fs, some rs => some ⟨fs, rs⟩
      | _, _ => none
    | _, _ => none
  | _ => none

/-- A release with its asset dict sorted by key — what a save/load cycle
turns a release into. -/
def canon_release (r : Release) : Release :=
  { r with assets := sortByKey r.assets }

/-- A repo record after a save/load cycle: release order preserved, each
release's assets sorted. -/
def canon_cached_repo (c : CachedRepo) : CachedRepo :=
  { c with releases := c.releases.map canon_release }

/-- A cache after a save/load cycle: both maps sorted by key, values
canonicalised. -/
def canon_cache (c : Cache) : Cache :=
  ⟨sortByKey c.files, (sortByKey c.repos).map (fun p => (p.1, canon_cached_repo p.2))⟩

/-- Python dict equality: same length and, for every key of the first,
an equal (by `eqv`) value in the second. -/
def dict_eq_by {α : Type} (eqv : α → α → Bool) (m1 m2 : List (String × α)) : Bool :=
  m1.length == m2.length &&
    m1.all (fun p =>
      match List.lookup p.1 m2 with
      | some v => eqv p.2 v
      | none => false)

/-- Python `==` on `Release` dataclasses: field-wise, with dict equality
on the assets. -/
def release_eqb (r s : Release) : Bool :=
  r.tag_name == s.tag_name && r.timestamp == s.timestamp && r.name == s.name &&
    r.body == s.body && dict_eq_by (fun a b => a == b) r.assets s.assets

/-- Python `==` on `CachedRepo` dataclasses: list equality on releases is
order-sensitive and element-wise. -/
def cached_repo_eqb (c d : CachedRepo) : Bool :=
  c.last_checked == d.last_checked && c.releases.length == d.releases.length &&
    (c.releases.zip d.releases).all (fun p => release_eqb p.1 p.2)

/-- Python structural equality of two caches: dict equality on both maps. -/
def cache_eqb (c d : Cache) : Bool :=
  dict_eq_by (fun a b => a == b) c.files d.files && dict_eq_by cached_repo_eqb c.repos d.repos

/-- Well-formedness every cache the program holds satisfies: the maps are
Python dicts, so their keys are distinct. -/
def cache_wf (c : Cache) : Prop :=
  (c.files.map Prod.fst).Nodup ∧ (c.repos.map Prod.fst).Nodup ∧
    ∀ p ∈ c.repos, ∀ r ∈ (p.2 : CachedRepo).releases, (r.assets.map Prod.fst).Nodup

theorem listScan_no_match (a : Option String) (cf : CachedFile) :
    ∀ (rels : List Release), (∀ r ∈ rels, releaseMatches a cf r = false) →
      ∀ acc, listScan a cf rels acc = ("", "unknown version") := by
  intro rels
  induction rels with
  | nil => intro _ acc; rfl
  | cons r rest ih =>
    intro h acc
    have hr := h r (by simp)
    have hrest : ∀ r' ∈ rest, releaseMatches a cf r' = false :=
      fun r' hm => h r' (by simp [hm])
    unfold listScan
    cases hl : optLookup a r.assets with
    | none => exact ih hrest acc
    | some asset =>
      have hm : assetMatches cf asset = false := by
        unfold releaseMatches at hr; rw [hl] at hr; exact hr
      simp only [hm, Bool.false_eq_true, if_false]
      exact ih hrest (acc ++ [r])

theorem listScan_found (a : Option String) (cf : CachedFile) :
    ∀ (pre : List Release) (r : Release) (post acc : List Release),
      releaseMatches a cf r = true →
      (∀ r' ∈ pre, releaseMatches a cf r' = false) →
      listScan a cf (pre ++ r :: post) acc =
        (r.tag_name,
          if acc.length + (pre.filter (hasAsset a)).length = 0 then "up to date"
          else "update available") := by
  intro pre
  induction pre with
  | nil =>
    intro r post acc hr _
    rw [List.nil_append]
    unfold listScan
    cases hl : optLookup a r.assets with
    | none => unfold releaseMatches at hr; rw [hl] at hr; exact absurd hr (by simp)
    | some asset =>
      have hm : assetMatches cf asset = true := by
        unfold releaseMatches at hr; rw [hl] at hr; exact hr
      simp [hm]
  | cons p pre' ih =>
    intro r post acc hr hpre
    have hp := hpre p (by simp)
    have hrest : ∀ r' ∈ pre', releaseMatches a cf r' = false :=
      fun r' hm => hpre r' (by simp [hm])
    rw [List.cons_append]
    unfold listScan
    cases hl : optLookup a p.assets with
    | none =>
      have hha : hasAsset a p = false := by unfold hasAsset; rw [hl]; rfl
      rw [ih r post acc hr hrest]
      simp [List.filter_cons, hha]
    | some asset =>
      have hm : assetMatches cf asset = false := by
        unfold releaseMatches at hp; rw [hl] at hp; exact hp
      have hha : hasAsset a p = true := by unfold hasAsset; rw [hl]; rfl
      simp only [hm, Bool.false_eq_true, if_false]
      rw [ih r post (acc ++ [p]) hr hrest]
      have hlen : (acc ++ [p]).length + (pre'.filter (hasAsset a)).length =
          acc.length + ((p :: pre').filter (hasAsset a)).length := by
        simp [List.filter_cons, hha]; omega
      rw [hlen]

/-- Claim C1 (amended): for a repo-sourced item with both the local file
record and the remote repo record present, the scan skips releases lacking
the configured asset name, matches at the first release whose asset
matches by digest (or, digest-less, by size), reports that release's tag,
and the status is "up to date" exactly when no earlier-scanned release
contains the asset name (not: when the match is the first release scanned);
when no release's asset matches — in particular when no release contains
the asset at all — the item is classified "unknown version". -/
theorem c1_list_classification (a : Option String) (cf : CachedFile) (repo : CachedRepo) :
    ((∀ r ∈ repo.releases, releaseMatches a cf r = false) →
      classifyRepoWorld a (some cf) (some repo) = ("", "unknown version"))
    ∧ (∀ pre r post, repo.releases = pre ++ r :: post →
        releaseMatches a cf r = true →
        (∀ r' ∈ pre, releaseMatches a cf r' = false) →
        classifyRepoWorld a (some cf) (some repo) =
          (r.tag_name, if pre.any (hasAsset a) then "update available" else "up to date")) := by
  constructor
  · intro h
    exact listScan_no_match a cf repo.releases h []
  · intro pre r post hsplit hr hpre
    show listScan a cf repo.releases [] = _
    rw [hsplit, listScan_found a cf pre r post [] hr hpre]
    by_cases hany : pre.any (hasAsset a) = true
    · rcases List.any_eq_true.mp hany with ⟨x, hx, hhx⟩
      have : (pre.filter (hasAsset a)).length ≠ 0 := by
        intro h0
        have : x ∈ pre.filter (hasAsset a) := List.mem_filter.mpr ⟨hx, hhx⟩
        rw [List.length_eq_zero.mp h0] at this
        exact absurd this (List.not_mem_nil x)
      simp [hany, this]
    · have hall : ∀ x ∈ pre, hasAsset a x = false := by
        intro x hx
        by_contra hc
        exact hany (List.any_eq_true.mpr ⟨x, hx, by revert hc; cases hasAsset a x <;> simp⟩)
      have : pre.filter (hasAsset a) = [] := List.filter_eq_nil_iff.mpr (by intro x hx; simp [hall x hx])
      simp [hany, this]

/-- Claim C1 counterexample: releases newest-first where the newest release
lacks the configured asset and the second release's asset matches the
local digest.  The code classifies this "up to date" (its `newer_versions`
list counts only asset-bearing releases), while the claim — the matched
release was not the first release scanned — demands "update available". -/
theorem c1_counterexample :
    classifyRepoWorld (some "x.apworld") (some ⟨0, 10, 0, "d1"⟩)
        (some ⟨0, [⟨"v3", "", "", "", []⟩, ⟨"v2", "", "", "", [("x.apworld", ⟨10, some "d1"⟩)]⟩]⟩) =
      ("v2", "up to date")
    ∧ ¬ (classifyRepoWorld (some "x.apworld") (some ⟨0, 10, 0, "d1"⟩)
        (some ⟨0, [⟨"v3", "", "", "", []⟩, ⟨"v2", "", "", "", [("x.apworld", ⟨10, some "d1"⟩)]⟩]⟩) =
      ("v2", "update available")) := by
  constructor
  · decide
  · decide

/-- Witness for the amended claim C1 at a concrete input: local digest
"d1" against releases [v2 with digest "d2", v1 with digest "d1"] yields
version "v1" with status "update available". -/
theorem c1_list_classification_witness :
    classifyRepoWorld (some "x.apworld") (some ⟨0, 10, 0, "d1"⟩)
        (some ⟨0, [⟨"v2", "", "", "", [("x.apworld", ⟨10, some "d2"⟩)]⟩,
                   ⟨"v1", "", "", "", [("x.apworld", ⟨10, some "d1"⟩)]⟩]⟩) =
      ("v1", "update available") := by
  have h := (c1_list_classification (some "x.apworld") ⟨0, 10, 0, "d1"⟩
      ⟨0, [⟨"v2", "", "", "", [("x.apworld", ⟨10, some "d2"⟩)]⟩,
           ⟨"v1", "", "", "", [("x.apworld", ⟨10, some "d1"⟩)]⟩]⟩).2
      [⟨"v2", "", "", "", [("x.apworld", ⟨10, some "d2"⟩)]⟩]
      ⟨"v1", "", "", "", [("x.apworld", ⟨10, some "d1"⟩)]⟩ [] rfl (by decide) (by decide)
  rw [h]
  decide

theorem listLeB_total (as : List Char) : ∀ bs, (listLeB as bs || listLeB bs as) = true := by
  induction as with
  | nil => intro bs; cases bs <;> simp [listLeB]
  | cons a as ih =>
    intro bs
    cases bs with
    | nil => simp [listLeB]
    | cons b bs' =>
      simp only [listLeB]
      rcases Nat.lt_trichotomy a.toNat b.toNat with h | h | h
      · simp [h]
      · simp only [h, Nat.lt_irrefl, if_false]
        exact ih bs'
      · simp [h, Nat.lt_asymm h]

theorem listLeB_trans (as : List Char) :
    ∀ bs cs, listLeB as bs = true → listLeB bs cs = true → listLeB as cs = true := by
  induction as with
  | nil => intro bs cs _ _; simp [listLeB]
  | cons a as ih =>
    intro bs cs hab hbc
    cases bs with
    | nil => simp [listLeB] at hab
    | cons b bs' =>
      cases cs with
      | nil => simp [listLeB] at hbc
      | cons c cs' =>
        simp only [listLeB] at hab hbc ⊢
        by_cases h1 : a.toNat < b.toNat
        · by_cases h2 : b.toNat < c.toNat
          · simp [Nat.lt_trans h1 h2]
          · by_cases h3 : c.toNat < b.toNat
            · simp [h2, h3] at hbc
            · have heq : b.toNat = c.toNat := Nat.le_antisymm (Nat.not_lt.mp h3) (Nat.not_lt.mp h2)
              simp [heq ▸ h1]
        · by_cases h1' : b.toNat < a.toNat
          · simp [h1, h1'] at hab
          · have heq : a.toNat = b.toNat := Nat.le_antisymm (Nat.not_lt.mp h1') (Nat.not_lt.mp h1)
            have hab' : listLeB as bs' = true := by simpa [h1, h1'] using hab
            by_cases h2 : b.toNat < c.toNat
            · simp [heq ▸ h2]
            · by_cases h3 : c.toNat < b.toNat
              · simp [h2, h3] at hbc
              · have heq2 : b.toNat = c.toNat := Nat.le_antisymm (Nat.not_lt.mp h3) (Nat.not_lt.mp h2)
                have hbc' : listLeB bs' cs' = true := by simpa [h2, h3] using hbc
                have hac : ¬ a.toNat < c.toNat := by omega
                have hca : ¬ c.toNat < a.toNat := by omega
                simp only [hac, hca, if_false]
                exact ih bs' cs' hab' hbc'

theorem strLeB_of_not (x y : String) (h : strLeB x y = false) : strLeB y x = true := by
  have ht := listLeB_total x.toList y.toList
  unfold strLeB at *
  rw [h] at ht
  simpa using ht

theorem strLeB_trans (x y z : String) (h1 : strLeB x y = true) (h2 : strLeB y z = true) :
    strLeB x z = true :=
  listLeB_trans x.toList y.toList z.toList h1 h2

theorem sortedStrings_last_three (a b c : String) :
    (sortedStrings [a, b, c]).getLastD "" = strMax (strMax a b) c := by
  unfold sortedStrings strMax
  simp only [List.insertionSort, List.orderedInsert]
  by_cases h1 : strLeB b c = true
  · simp only [h1, if_true]
    by_cases h2 : strLeB a b = true
    · simp [h1, h2]
    · by_cases h3 : strLeB a c = true
      · simp [h1, h2, h3]
      · simp [h1, h2, h3]
  · have hcb : strLeB c b = true := strLeB_of_not b c (by simpa using h1)
    by_cases h2 : strLeB a c = true
    · have hab : strLeB a b = true := strLeB_trans a c b h2 hcb
      simp [h1, h2, hab]
    · by_cases h3 : strLeB a b = true
      · simp [h1, h2, h3]
      · simp [h1, h2, h3]

theorem sha256DigestCore_eq_some_iff (cs h : List Char) :
    sha256DigestCore cs = some h ↔
      h.length = 64 ∧ h.all hexLower = true ∧
        (cs = sha256Tag ++ h ∨ cs = sha256Tag ++ h ++ ['\n']) := by
  constructor
  · intro heq
    unfold sha256DigestCore at heq
    by_cases htag : cs.take 7 = sha256Tag
    · rw [if_pos htag] at heq
      have hsplit : cs = sha256Tag ++ cs.drop 7 := by
        conv_lhs => rw [← List.take_append_drop 7 cs]
        rw [htag]
      by_cases hfirst : (cs.drop 7).length = 64 && (cs.drop 7).all hexLower
      · rw [if_pos hfirst] at heq
        have hh : cs.drop 7 = h := by injection heq
        rcases Bool.and_eq_true .. |>.mp hfirst with ⟨hl, ha⟩
        refine ⟨by rw [← hh]; simpa using hl, by rw [← hh]; exact ha, Or.inl ?_⟩
        rw [← hh]; exact hsplit
      · rw [if_neg (by simpa using hfirst)] at heq
        by_cases hsecond : (cs.drop 7).length = 65 && (cs.drop 7).getLast? == some '\n' &&
            ((cs.drop 7).take 64).all hexLower
        · rw [if_pos hsecond] at heq
          have hh : (cs.drop 7).take 64 = h := by injection heq
          have h65 : (cs.drop 7).length = 65 := by
            rcases Bool.and_eq_true .. |>.mp hsecond with ⟨hx, _⟩
            rcases Bool.and_eq_true .. |>.mp hx with ⟨hx', _⟩
            simpa using hx'
          have hlast : (cs.drop 7).getLast? = some '\n' := by
            rcases Bool.and_eq_true .. |>.mp hsecond with ⟨hx, _⟩
            rcases Bool.and_eq_true .. |>.mp hx with ⟨_, hx''⟩
            simpa using hx''
          have hall : ((cs.drop 7).take 64).all hexLower = true := by
            rcases Bool.and_eq_true .. |>.mp hsecond with ⟨_, hy⟩
            exact hy
          have hlen1 : ((cs.drop 7).drop 64).length = 1 := by
            rw [List.length_drop, h65]
          rcases List.length_eq_one.mp hlen1 with ⟨x, hx⟩
          have hrest : cs.drop 7 = (cs.drop 7).take 64 ++ [x] := by
            conv_lhs => rw [← List.take_append_drop 64 (cs.drop 7)]
            rw [hx]
          have hxn : x = '\n' := by
            rw [hrest, List.getLast?_concat] at hlast
            injection hlast
          refine ⟨?_, by rw [← hh]; exact hall, Or.inr ?_⟩
          · rw [← hh, List.length_take, h65]
            decide
          · calc cs = sha256Tag ++ cs.drop 7 := hsplit
              _ = sha256Tag ++ ((cs.drop 7).take 64 ++ [x]) := by rw [← hrest]
              _ = sha256Tag ++ (h ++ ['\n']) := by rw [hh, hxn]
              _ = sha256Tag ++ h ++ ['\n'] := by rw [List.append_assoc]
        · rw [if_neg (by simpa using hsecond)] at heq
          exact absurd heq (by simp)
    · rw [if_neg htag] at heq
      exact absurd heq (by simp)
  · rintro ⟨hlen, hall, hcs | hcs⟩
    · unfold sha256DigestCore
      have htag : cs.take 7 = sha256Tag := by
        rw [hcs]
        have : (7 : Nat) = sha256Tag.length := rfl
        rw [this, List.take_left]
      have hdrop : cs.drop 7 = h := by
        rw [hcs]
        have : (7 : Nat) = sha256Tag.length := rfl
        rw [this, List.drop_left]
      rw [if_pos htag, hdrop, if_pos (by simp [hlen, hall])]
    · unfold sha256DigestCore
      have htag : cs.take 7 = sha256Tag := by
        rw [hcs]
        have : (7 : Nat) = sha256Tag.length := rfl
        rw [this, List.append_assoc, List.take_left]
      have hdrop : cs.drop 7 = h ++ ['\n'] := by
        rw [hcs]
        have : (7 : Nat) = sha256Tag.length := rfl
        rw [this, List.append_assoc, List.drop_left]
      have hlen65 : (h ++ ['\n']).length = 65 := by simp [hlen]
      have htake : (h ++ ['\n']).take 64 = h := by
        have : (64 : Nat) = h.length := hlen.symm
        rw [this, List.take_left]
      rw [if_pos htag, hdrop]
      rw [if_neg (by simp [hlen65]), if_pos (by simp [hlen65, htake, hall, List.getLast?_concat])]
      rw [htake]

theorem ingestAsset_some (nm : String) (sz : Int) (d : String) :
    ingestAsset ⟨nm, sz, some d⟩ =
      if d = "" then .ok ⟨sz, none⟩
      else
        match reMatchSha256 d with
        | .ok h => .ok ⟨sz, some h⟩
        | .error e => .error e := rfl

theorem ingestAssets_error (l : List AssetInfo) :
    ∀ acc ai, ai ∈ l → (ingestAsset ai).isOk = false →
      ∃ e, ingestAssets acc l = .error e := by
  induction l with
  | nil => intro _ ai h; exact absurd h (List.not_mem_nil ai)
  | cons info rest ih =>
    intro acc ai hmem hbad
    unfold ingestAssets
    cases hi : ingestAsset info with
    | error e => exact ⟨e, rfl⟩
    | ok a =>
      rcases List.mem_cons.mp hmem with heq | hmem'
      · rw [heq] at hbad; rw [hi] at hbad; simp [Except.isOk, Except.toBool] at hbad
      · exact ih (dictSet acc info.name a) ai hmem' hbad

/-- Claim C3 (amended): during release ingestion an asset whose digest
field is missing or empty is recorded digest-absent; a digest field of
exactly `sha256:` followed by 64 lowercase hex digits is parsed into that
hex digest; but any other non-empty digest value (other algorithm, other
shape) makes the digest parse — and with it the whole release ingestion —
fail with an error, rather than being recorded as digest-absent. -/
theorem c3_digest_parsing (nm : String) (sz : Int) :
    (∀ d : Option String, (d = none ∨ d = some "") →
      ingestAsset ⟨nm, sz, d⟩ = .ok ⟨sz, none⟩)
    ∧ (∀ h : List Char, h.length = 64 → h.all hexLower = true →
        ingestAsset ⟨nm, sz, some (String.mk (sha256Tag ++ h))⟩ = .ok ⟨sz, some (String.mk h)⟩)
    ∧ (∀ s : String, s ≠ "" →
        (∀ h : List Char, ¬ (h.length = 64 ∧ h.all hexLower = true ∧
          (s.toList = sha256Tag ++ h ∨ s.toList = sha256Tag ++ h ++ ['\n']))) →
        (ingestAsset ⟨nm, sz, some s⟩).isOk = false)
    ∧ (∀ (info : ReleaseInfo) (ai : AssetInfo), ai ∈ info.assets →
        (ingestAsset ai).isOk = false → ∃ e, ingestRelease info = .error e) := by
  refine ⟨?_, ?_, ?_, ?_⟩
  · rintro d (rfl | rfl)
    · rfl
    · rfl
  · intro h hlen hall
    have hne : String.mk (sha256Tag ++ h) ≠ "" := by
      intro hc
      have : sha256Tag ++ h = ([] : List Char) := congrArg String.data hc
      simp [sha256Tag] at this
    have hparse : parseSha256Digest (String.mk (sha256Tag ++ h)) = some (String.mk h) := by
      unfold parseSha256Digest
      have : (String.mk (sha256Tag ++ h)).toList = sha256Tag ++ h := rfl
      rw [this, (sha256DigestCore_eq_some_iff (sha256Tag ++ h) h).mpr ⟨hlen, hall, Or.inl rfl⟩]
      rfl
    rw [ingestAsset_some, if_neg hne]
    unfold reMatchSha256
    rw [hparse]
  · intro s hne hshape
    have hcore : sha256DigestCore s.toList = none := by
      cases hc : sha256DigestCore s.toList with
      | none => rfl
      | some h =>
        rcases (sha256DigestCore_eq_some_iff s.toList h).mp hc with ⟨h1, h2, h3⟩
        exact absurd ⟨h1, h2, h3⟩ (hshape h)
    rw [ingestAsset_some, if_neg hne]
    unfold reMatchSha256 parseSha256Digest
    rw [hcore]
    rfl
  · intro info ai hmem hbad
    rcases ingestAssets_error info.assets [] ai hmem hbad with ⟨e, he⟩
    refine ⟨e, ?_⟩
    unfold ingestRelease
    rw [he]

/-- Claim C3 counterexample: an asset whose digest field is "md5:abc" — a
non-sha256 algorithm — does not get recorded as digest-absent; the
ingestion fails with an error instead. -/
theorem c3_counterexample :
    (ingestAsset ⟨"x.apworld", 10, some "md5:abc"⟩).isOk = false
    ∧ ¬ (ingestAsset ⟨"x.apworld", 10, some "md5:abc"⟩ = .ok ⟨10, none⟩) := by
  constructor
  · decide
  · decide

/-- Witness for the amended claim C3: the digest "sha256:" + 64 copies of
"a" parses to the 64-character hex digest; an empty digest is recorded as
absent; and a release containing the asset with digest "md5:abc" fails to
ingest. -/
theorem c3_digest_parsing_witness :
    ingestAsset ⟨"x.apworld", 10, some (String.mk (sha256Tag ++ List.replicate 64 'a'))⟩ =
        .ok ⟨10, some (String.mk (List.replicate 64 'a'))⟩
    ∧ ingestAsset ⟨"x.apworld", 10, some ""⟩ = .ok ⟨10, none⟩
    ∧ ∃ e, ingestRelease ⟨"v1", "2024-01-01", none, none, none, none,
        [⟨"x.apworld", 10, some "md5:abc"⟩]⟩ = .error e := by
  refine ⟨?_, ?_, ?_⟩
  · exact (c3_digest_parsing "x.apworld" 10).2.1 (List.replicate 64 'a') (by decide) (by decide)
  · exact (c3_digest_parsing "x.apworld" 10).1 (some "") (Or.inr rfl)
  · exact (c3_digest_parsing "x.apworld" 10).2.2.2
      ⟨"v1", "2024-01-01", none, none, none, none, [⟨"x.apworld", 10, some "md5:abc"⟩]⟩
      ⟨"x.apworld", 10, some "md5:abc"⟩ (by simp) (by decide)

/-- Claim C9: for every release ingested by `refresh_repo`, the stored
timestamp is the lexicographic maximum of the created timestamp and the
updated/published timestamps, the latter two defaulting to the empty
string when missing — and the empty string is a bottom element of the
lexicographic order, so a missing value never wins the maximum against any
present value. -/
theorem c9_release_timestamp (info : ReleaseInfo) (rel : Release)
    (h : ingestRelease info = .ok rel) :
    rel.timestamp =
      strMax (strMax info.created_at (orEmpty info.updated_at)) (orEmpty info.published_at)
    ∧ orEmpty none = ""
    ∧ ∀ s : String, strLeB "" s = true := by
  refine ⟨?_, rfl, fun s => rfl⟩
  unfold ingestRelease at h
  cases ha : ingestAssets [] info.assets with
  | error e => rw [ha] at h; exact absurd h (by simp)
  | ok assets =>
    rw [ha] at h
    have h' := (Except.ok.inj h).symm
    rw [h']
    exact sortedStrings_last_three _ _ _

/-- Witness for claim C9: a release created 2024-01-01, updated 2024-06-01,
never published, is stored with timestamp 2024-06-01, the lexicographic
maximum. -/
theorem c9_release_timestamp_witness :
    (⟨"v1", "2024-06-01", "", "", []⟩ : Release).timestamp =
      strMax (strMax "2024-01-01" (orEmpty (some "2024-06-01"))) (orEmpty none)
    ∧ orEmpty none = ""
    ∧ ∀ s : String, strLeB "" s = true :=
  c9_release_timestamp ⟨"v1", "2024-01-01", some "2024-06-01", none, none, none, []⟩
    ⟨"v1", "2024-06-01", "", "", []⟩ (by decide)

/-- Claim C8: a page request failing with HTTP 403 or 429 and a zero
remaining-quota header terminates the run fatally, reporting a wait
duration of (rate-limit reset epoch − current time); the request is never
retried (the remaining transport responses `rest` are irrelevant); any
other transport error propagates unhandled. -/
theorem c8_rate_limit (status : Nat) (remaining : Option String) (reset now : Int)
    (rest : List PageResponse) :
    fetchAllPages now (.err status remaining reset :: rest) =
      .error (if (status = 403 ∨ status = 429) ∧ remaining = some "0"
              then some (rateLimitMessage (reset - now)) else none) := by
  unfold fetchAllPages
  by_cases h : (status = 403 ∨ status = 429) ∧ remaining = some "0"
  · have hb : ((status == 403 || status == 429) && remaining == some "0") = true := by
      rcases h with ⟨h1, h2⟩
      subst h2
      rcases h1 with rfl | rfl <;> decide
    rw [if_pos hb, if_pos h]
  · have hb : ¬ (((status == 403 || status == 429) && remaining == some "0") = true) := by
      intro hc
      rcases Bool.and_eq_true .. |>.mp hc with ⟨hor, hrem⟩
      refine h ⟨?_, beq_iff_eq.mp hrem⟩
      rcases Bool.or_eq_true .. |>.mp hor with h4 | h4
      · exact Or.inl (beq_iff_eq.mp h4)
      · exact Or.inr (beq_iff_eq.mp h4)
    rw [if_neg hb, if_neg h]

/-- Claim C2 (code bug): the manually-managed branch of `do_list` (lines
99-104) reads the `cached_file` variable left over from the previous loop
iteration instead of looking the item's `manual_file_name` up in the file
cache.  First conjunct: a config whose first world is github-sourced with
its asset present on disk and whose second world is manually managed with
its file absent from disk — the manual item is nonetheless reported
"(manually managed)", where the claim requires "manual file missing from
disk".  Second conjunct: a config whose first world is manually managed —
`cached_file` has never been assigned and the listing crashes with
`UnboundLocalError` instead of consulting the file cache. -/
theorem c2_manual_branch_bug :
    do_list [("g", ⟨some "u/r", some "g.apworld", none⟩), ("m", ⟨none, none, some "m.apworld"⟩)]
        ⟨[("g.apworld", ⟨0, 5, 0, "dg"⟩)], [("u/r", ⟨0, []⟩)]⟩ [] =
      .ok [⟨"g", "", "unknown version"⟩, ⟨"m", "", "(manually managed)"⟩]
    ∧ do_list [("m", ⟨none, none, some "m.apworld"⟩)] ⟨[], []⟩ [] =
      .error "UnboundLocalError: cached_file" := by
  constructor
  · decide
  · decide

theorem lookup_map_replace {α : Type} (m : List (String × α)) (k : String) (v : α) (k' : String) :
    List.lookup k' (m.map (fun p => if p.1 == k then (k, v) else p)) =
      if k' = k then (if (List.lookup k m).isSome then some v else none)
      else List.lookup k' m := by
  induction m with
  | nil => by_cases h : k' = k <;> simp [List.lookup, h]
  | cons p rest ih =>
    obtain ⟨a, b⟩ := p
    by_cases hak : a = k
    · subst hak
      by_cases hk' : k' = a
      · subst hk'
        simp [List.lookup_cons]
      · have hk'b : (k' == a) = false := by simp [hk']
        simp only [List.map_cons, beq_self_eq_true, if_true, List.lookup_cons, hk'b, ih]
        simp [hk']
    · have hforward : ((a, b).1 == k) = false := by simp [hak]
      by_cases hk' : k' = a
      · subst hk'
        have h1 : ¬ (k' = k) := fun h => hak (h ▸ rfl)
        simp [List.lookup_cons, hforward, h1]
      · have hk'b : (k' == a) = false := by simp [hk']
        have hka : (k == a) = false := by
          simp only [beq_eq_false_iff_ne, ne_eq]
          exact fun h => hak h.symm
        simp only [List.map_cons, hforward, Bool.false_eq_true, if_false, List.lookup_cons,
          hk'b, ih, hka]

theorem lookup_dictSet {α : Type} (m : List (String × α)) (k : String) (v : α) (k' : String) :
    List.lookup k' (dictSet m k v) = if k' = k then some v else List.lookup k' m := by
  unfold dictSet
  by_cases hs : (List.lookup k m).isSome
  · rw [if_pos hs, lookup_map_replace]
    by_cases h : k' = k <;> simp [h, hs]
  · rw [if_neg hs, List.lookup_append]
    by_cases h : k' = k
    · subst h
      have hnone : List.lookup k' m = none := by
        cases hl : List.lookup k' m
        · rfl
        · rw [hl] at hs; simp at hs
      rw [hnone]
      simp [List.lookup_cons]
    · have hb : (k' == k) = false := by simp [h]
      cases hl : List.lookup k' m <;> simp [List.lookup_cons, hb, Option.or, List.lookup, h]

theorem lookup_isSome_iff_mem_keys {α : Type} (m : List (String × α)) (k : String) :
    (List.lookup k m).isSome = true ↔ k ∈ m.map Prod.fst := by
  induction m with
  | nil => simp [List.lookup]
  | cons p rest ih =>
    obtain ⟨a, b⟩ := p
    by_cases h : k = a
    · subst h; simp [List.lookup_cons]
    · have hb : (k == a) = false := by simp [h]
      simp [List.lookup_cons, hb, h, ih]

theorem lookup_dictErase {α : Type} (m : List (String × α)) (k k' : String) :
    List.lookup k' (dictErase m k) = if k' = k then none else List.lookup k' m := by
  induction m with
  | nil => by_cases h : k' = k <;> simp [dictErase, List.lookup, h]
  | cons p rest ih =>
    obtain ⟨a, b⟩ := p
    have hstep : dictErase ((a, b) :: rest) k =
        if a = k then dictErase rest k else (a, b) :: dictErase rest k := by
      unfold dictErase
      rw [List.filter_cons]
      by_cases hak : a = k <;> simp [hak]
    rw [hstep]
    by_cases hak : a = k
    · rw [if_pos hak, ih]
      by_cases h : k' = k
      · simp [h]
      · have hne : (k' == a) = false := beq_eq_false_iff_ne.mpr (fun hh => h (hak ▸ hh))
        rw [if_neg h, if_neg h, List.lookup_cons, hne]
    · rw [if_neg hak, List.lookup_cons]
      by_cases h2 : k' = a
      · subst h2
        have h : ¬ (k' = k) := fun hh => hak hh
        rw [if_neg h, List.lookup_cons]
        simp
      · have hne : (k' == a) = false := beq_eq_false_iff_ne.mpr h2
        rw [hne, ih]
        by_cases h : k' = k
        · simp [h]
        · rw [if_neg h, if_neg h, List.lookup_cons, hne]

theorem lookup_foldl_dictErase {α : Type} (ks : List String) :
    ∀ (m : List (String × α)) (k' : String),
      List.lookup k' (ks.foldl dictErase m) = if k' ∈ ks then none else List.lookup k' m := by
  induction ks with
  | nil => intro m k'; simp
  | cons k rest ih =>
    intro m k'
    rw [List.foldl_cons, ih]
    by_cases h1 : k' ∈ rest
    · simp [h1]
    · rw [if_neg h1, lookup_dictErase]
      by_cases h2 : k' = k
      · simp [h2]
      · simp [h2, h1]

theorem scannedB_iff (entries : List DirEntry) (k : String) :
    scannedB entries k = true ↔ ∃ e ∈ entries, is_hidden e.name = false ∧ e.name = k := by
  simp [scannedB, List.any_eq_true, Bool.and_eq_true]

theorem scannedB_append (l : List DirEntry) (e : DirEntry) (k : String) :
    scannedB (l ++ [e]) k = (scannedB l k || (!is_hidden e.name && e.name == k)) := by
  simp [scannedB, List.any_append]

theorem scannedB_false_of_not_mem (l : List DirEntry) (k : String)
    (h : k ∉ l.map DirEntry.name) : scannedB l k = false := by
  by_contra hc
  rcases (scannedB_iff l k).mp (by revert hc; cases scannedB l k <;> simp) with ⟨e, he, _, hname⟩
  exact h (hname ▸ List.mem_map_of_mem DirEntry.name he)

theorem refresh_fold_spec (files0 : List (String × CachedFile)) :
    ∀ (l : List DirEntry), (l.map DirEntry.name).Nodup →
      (∀ k, (List.lookup k (refresh_fold files0 l).files).isSome =
          ((List.lookup k files0).isSome || scannedB l k))
      ∧ (∀ e ∈ l, is_hidden e.name = false →
          List.lookup e.name (refresh_fold files0 l).files = some (new_val files0 e))
      ∧ (∀ k, scannedB l k = false →
          List.lookup k (refresh_fold files0 l).files = List.lookup k files0)
      ∧ ((refresh_fold files0 l).outstanding_keys =
          (files0.map Prod.fst).filter (fun k => !scannedB l k))
      ∧ ((refresh_fold files0 l).rehashed =
          (l.filter (fun e => !is_hidden e.name && rehashes files0 e)).map DirEntry.name) := by
  intro l
  induction l using List.reverseRecOn with
  | nil =>
    intro _
    refine ⟨?_, ?_, ?_, ?_, ?_⟩
    · intro k; simp [refresh_fold, scannedB]
    · intro e he; exact absurd he (List.not_mem_nil e)
    · intro k _; rfl
    · simp [refresh_fold, scannedB]
    · simp [refresh_fold]
  | append_singleton l e ih =>
    intro hnd
    have hnd' : (l.map DirEntry.name).Nodup := by
      rw [List.map_append] at hnd
      exact (List.nodup_append.mp hnd).1
    have hnotmem : e.name ∉ l.map DirEntry.name := by
      rw [List.map_append] at hnd
      rcases List.nodup_append.mp hnd with ⟨_, _, hdisj⟩
      intro hc
      exact hdisj hc (by simp)
    obtain ⟨ih1, ih2, ih3, ih4, ih5⟩ := ih hnd'
    have hfold : refresh_fold files0 (l ++ [e]) = refresh_step (refresh_fold files0 l) e := by
      unfold refresh_fold
      rw [List.foldl_concat]
    have hscanl : scannedB l e.name = false := scannedB_false_of_not_mem l e.name hnotmem
    have hlookup_st :
        List.lookup e.name (refresh_fold files0 l).files = List.lookup e.name files0 :=
      ih3 e.name hscanl
    by_cases hh : is_hidden e.name = true
    · have hstep : refresh_step (refresh_fold files0 l) e = refresh_fold files0 l := by
        unfold refresh_step
        rw [if_pos hh]
      rw [hfold, hstep]
      refine ⟨?_, ?_, ?_, ?_, ?_⟩
      · intro k
        rw [ih1 k, scannedB_append]
        simp [hh]
      · intro e' he' hhe'
        rcases List.mem_append.mp he' with h | h
        · exact ih2 e' h hhe'
        · have he'e : e' = e := by simpa using h
          rw [he'e, hh] at hhe'
          exact absurd hhe' (by simp)
      · intro k hk
        rw [scannedB_append] at hk
        simp only [hh, Bool.not_true, Bool.false_and, Bool.or_false] at hk
        exact ih3 k hk
      · rw [ih4]
        apply List.filter_congr
        intro k _
        rw [scannedB_append]
        simp [hh]
      · rw [ih5, List.filter_append]
        simp [hh]
    · have hh' : is_hidden e.name = false := by revert hh; cases is_hidden e.name <;> simp
      have hfiles' : (refresh_step (refresh_fold files0 l) e).files =
          dictSet (refresh_fold files0 l).files e.name (new_val files0 e) := by
        unfold refresh_step
        rw [if_neg (by simp [hh']), hlookup_st]
        cases hfl : List.lookup e.name files0 with
        | none => simp [new_val, hfl]
        | some c =>
          by_cases hsm : stat_matches c e.stat = true
          · simp [new_val, hfl, hsm]
          · have hsm' : stat_matches c e.stat = false := by
              revert hsm; cases stat_matches c e.stat <;> simp
            simp [new_val, hfl, hsm']
      have hout' : (refresh_step (refresh_fold files0 l) e).outstanding_keys =
          (refresh_fold files0 l).outstanding_keys.filter (fun x => x ≠ e.name) := by
        unfold refresh_step
        rw [if_neg (by simp [hh']), hlookup_st]
        cases hfl : List.lookup e.name files0 with
        | none =>
          have hident : (refresh_fold files0 l).outstanding_keys.filter (fun x => x ≠ e.name) =
              (refresh_fold files0 l).outstanding_keys := by
            rw [List.filter_eq_self]
            intro x hx
            rw [ih4] at hx
            have hxk : x ∈ files0.map Prod.fst := (List.mem_filter.mp hx).1
            have : (List.lookup x files0).isSome = true :=
              (lookup_isSome_iff_mem_keys files0 x).mpr hxk
            simp only [ne_eq, decide_eq_true_eq]
            intro hxe
            rw [hxe, hfl] at this
            exact absurd this (by simp)
          rw [hident]
        | some c =>
          by_cases hsm : stat_matches c e.stat = true
          · simp [hsm]
          · have hsm' : stat_matches c e.stat = false := by
              revert hsm; cases stat_matches c e.stat <;> simp
            simp [hsm']
      have hreh' : (refresh_step (refresh_fold files0 l) e).rehashed =
          (refresh_fold files0 l).rehashed ++
            (if rehashes files0 e = true then [e.name] else []) := by
        unfold refresh_step
        rw [if_neg (by simp [hh']), hlookup_st]
        cases hfl : List.lookup e.name files0 with
        | none => simp [rehashes, hfl]
        | some c =>
          by_cases hsm : stat_matches c e.stat = true
          · simp [rehashes, hfl, hsm]
          · have hsm' : stat_matches c e.stat = false := by
              revert hsm; cases stat_matches c e.stat <;> simp
            simp [rehashes, hfl, hsm']
      rw [hfold]
      refine ⟨?_, ?_, ?_, ?_, ?_⟩
      · intro k
        rw [show (refresh_step (refresh_fold files0 l) e).files = _ from hfiles',
          lookup_dictSet, scannedB_append]
        by_cases hk : k = e.name
        · subst hk
          simp [hh']
        · have hb : (e.name == k) = false := beq_eq_false_iff_ne.mpr (fun hx => hk hx.symm)
          rw [if_neg hk]
          rw [ih1 k]
          simp [hb]
      · intro e' he' hhe'
        rw [show (refresh_step (refresh_fold files0 l) e).files = _ from hfiles',
          lookup_dictSet]
        rcases List.mem_append.mp he' with h | h
        · have hne : e'.name ≠ e.name := by
            intro hx
            exact hnotmem (hx ▸ List.mem_map_of_mem DirEntry.name h)
          rw [if_neg hne]
          exact ih2 e' h hhe'
        · have he'e : e' = e := by simpa using h
          subst he'e
          rw [if_pos rfl]
      · intro k hk
        rw [scannedB_append] at hk
        simp only [hh', Bool.not_false, Bool.true_and, Bool.or_eq_false_iff] at hk
        obtain ⟨hk1, hk2⟩ := hk
        have hkne : k ≠ e.name := by
          intro hx
          rw [hx] at hk2
          simp at hk2
        rw [show (refresh_step (refresh_fold files0 l) e).files = _ from hfiles',
          lookup_dictSet, if_neg hkne]
        exact ih3 k hk1
      · rw [hout', ih4, List.filter_filter]
        apply List.filter_congr
        intro k _
        rw [scannedB_append]
        by_cases hk : k = e.name
        · subst hk
          simp [hh']
        · have hb : (e.name == k) = false := beq_eq_false_iff_ne.mpr (fun hx => hk hx.symm)
          simp [hb, hk]
      · rw [hreh', ih5, List.filter_append, List.map_append]
        congr 1
        by_cases hr : rehashes files0 e = true
        · simp [hr, hh']
        · have hr' : rehashes files0 e = false := by
            revert hr; cases rehashes files0 e <;> simp
          simp [hr', hh']

theorem new_val_some (files0 : List (String × CachedFile)) (e : DirEntry) (c : CachedFile)
    (hc : List.lookup e.name files0 = some c) :
    new_val files0 e = if stat_matches c e.stat = true then c else load_cached_file e := by
  unfold new_val
  rw [hc]

theorem new_val_none (files0 : List (String × CachedFile)) (e : DirEntry)
    (hc : List.lookup e.name files0 = none) :
    new_val files0 e = load_cached_file e := by
  unfold new_val
  rw [hc]

theorem rehashes_some (files0 : List (String × CachedFile)) (e : DirEntry) (c : CachedFile)
    (hc : List.lookup e.name files0 = some c) :
    rehashes files0 e = ! stat_matches c e.stat := by
  unfold rehashes
  rw [hc]

theorem rehashes_none (files0 : List (String × CachedFile)) (e : DirEntry)
    (hc : List.lookup e.name files0 = none) :
    rehashes files0 e = true := by
  unfold rehashes
  rw [hc]

/-- Claim C4: after any `refresh_files`, the file cache's keys are exactly
the non-hidden names present in the directory scan; a scanned file whose
stored (mtime, size, inode) all equal its current stat values keeps its
record and its digest is not recomputed; a scanned file whose fingerprint
differs in any component, or that has no record, gets its digest
recomputed from content (`load_cached_file`) and its record replaced. -/
theorem c4_refresh_files (files0 : List (String × CachedFile)) (entries : List DirEntry)
    (hnd : (entries.map DirEntry.name).Nodup) :
    (∀ k, k ∈ (refresh_files files0 entries).files.map Prod.fst ↔
        ∃ e ∈ entries, is_hidden e.name = false ∧ e.name = k)
    ∧ (∀ e ∈ entries, is_hidden e.name = false →
        (∀ c, List.lookup e.name files0 = some c → stat_matches c e.stat = true →
          List.lookup e.name (refresh_files files0 entries).files = some c ∧
            e.name ∉ (refresh_files files0 entries).rehashed)
        ∧ (∀ c, List.lookup e.name files0 = some c → stat_matches c e.stat = false →
            List.lookup e.name (refresh_files files0 entries).files =
                some (load_cached_file e) ∧
              e.name ∈ (refresh_files files0 entries).rehashed)
        ∧ (List.lookup e.name files0 = none →
            List.lookup e.name (refresh_files files0 entries).files =
                some (load_cached_file e) ∧
              e.name ∈ (refresh_files files0 entries).rehashed)) := by
  obtain ⟨h1, h2, h3, h4, h5⟩ := refresh_fold_spec files0 entries hnd
  have hfiles : (refresh_files files0 entries).files =
      (refresh_fold files0 entries).outstanding_keys.foldl dictErase
        (refresh_fold files0 entries).files := rfl
  have hreh : (refresh_files files0 entries).rehashed =
      (refresh_fold files0 entries).rehashed := rfl
  have hlookupR : ∀ k, List.lookup k (refresh_files files0 entries).files =
      if k ∈ (refresh_fold files0 entries).outstanding_keys then none
      else List.lookup k (refresh_fold files0 entries).files := by
    intro k
    rw [hfiles, lookup_foldl_dictErase]
  have hmem_out : ∀ k, k ∈ (refresh_fold files0 entries).outstanding_keys ↔
      (k ∈ files0.map Prod.fst ∧ scannedB entries k = false) := by
    intro k
    rw [h4, List.mem_filter]
    constructor
    · rintro ⟨hk, hc⟩
      refine ⟨hk, ?_⟩
      revert hc; cases scannedB entries k <;> simp
    · rintro ⟨hk, hc⟩
      exact ⟨hk, by rw [hc]; rfl⟩
  constructor
  · intro k
    rw [← lookup_isSome_iff_mem_keys, hlookupR k]
    by_cases hscan : scannedB entries k = true
    · have hnotout : k ∉ (refresh_fold files0 entries).outstanding_keys := by
        rw [hmem_out]
        rintro ⟨_, hc⟩
        rw [hscan] at hc
        exact absurd hc (by simp)
      rw [if_neg hnotout, h1 k, hscan]
      simp only [Bool.or_true]
      exact ⟨fun _ => (scannedB_iff entries k).mp hscan, fun _ => by trivial⟩
    · have hscan' : scannedB entries k = false := by
        revert hscan; cases scannedB entries k <;> simp
      have hnoex : ¬ ∃ e ∈ entries, is_hidden e.name = false ∧ e.name = k := by
        intro hex
        rw [(scannedB_iff entries k).mpr hex] at hscan'
        exact absurd hscan' (by simp)
      by_cases hk0 : k ∈ files0.map Prod.fst
      · rw [if_pos ((hmem_out k).mpr ⟨hk0, hscan'⟩)]
        simp [hnoex]
      · have hnotout : k ∉ (refresh_fold files0 entries).outstanding_keys := by
          rw [hmem_out]
          rintro ⟨hc, _⟩
          exact hk0 hc
        rw [if_neg hnotout, h1 k, hscan']
        have hns : (List.lookup k files0).isSome = false := by
          revert hk0
          rw [← lookup_isSome_iff_mem_keys]
          cases (List.lookup k files0).isSome <;> simp
        rw [hns]
        simp [hnoex]
  · intro e he hhe
    have hscan : scannedB entries e.name = true :=
      (scannedB_iff entries e.name).mpr ⟨e, he, hhe, rfl⟩
    have hnotout : e.name ∉ (refresh_fold files0 entries).outstanding_keys := by
      rw [hmem_out]
      rintro ⟨_, hc⟩
      rw [hscan] at hc
      exact absurd hc (by simp)
    have hlook : List.lookup e.name (refresh_files files0 entries).files =
        some (new_val files0 e) := by
      rw [hlookupR, if_neg hnotout]
      exact h2 e he hhe
    have hinj : ∀ e' ∈ entries, e'.name = e.name → e' = e := by
      intro e' he' hname
      exact List.inj_on_of_nodup_map hnd he' he hname
    refine ⟨?_, ?_, ?_⟩
    · intro c hc hsm
      refine ⟨?_, ?_⟩
      · rw [hlook, new_val_some files0 e c hc, if_pos hsm]
      · rw [hreh, h5]
        intro hmem
        rcases List.mem_map.mp hmem with ⟨e', he', hname⟩
        rcases List.mem_filter.mp he' with ⟨he'', hcond⟩
        have he'e : e' = e := hinj e' he'' hname
        rw [he'e] at hcond
        rcases Bool.and_eq_true .. |>.mp hcond with ⟨_, hrh⟩
        rw [rehashes_some files0 e c hc, hsm] at hrh
        exact absurd hrh (by simp)
    · intro c hc hsm
      refine ⟨?_, ?_⟩
      · rw [hlook, new_val_some files0 e c hc, if_neg (by simp [hsm])]
      · rw [hreh, h5]
        refine List.mem_map.mpr ⟨e, List.mem_filter.mpr ⟨he, ?_⟩, rfl⟩
        simp [hhe, rehashes_some files0 e c hc, hsm]
    · intro hc
      refine ⟨?_, ?_⟩
      · rw [hlook, new_val_none files0 e hc]
      · rw [hreh, h5]
        refine List.mem_map.mpr ⟨e, List.mem_filter.mpr ⟨he, ?_⟩, rfl⟩
        simp [hhe, rehashes_none files0 e hc]

/-- Witness for claim C4 at a concrete directory state: a file whose stat
fingerprint is unchanged keeps its record and is not rehashed. -/
theorem c4_refresh_files_witness :
    List.lookup "a.apworld"
        (refresh_files [("a.apworld", ⟨1, 2, 3, "da"⟩), ("gone.apworld", ⟨9, 9, 9, "dg"⟩)]
          [⟨"a.apworld", ⟨1, 2, 3⟩, "da"⟩, ⟨"b.apworld", ⟨5, 6, 7⟩, "db"⟩]).files =
      some ⟨1, 2, 3, "da"⟩
    ∧ "a.apworld" ∉
        (refresh_files [("a.apworld", ⟨1, 2, 3, "da"⟩), ("gone.apworld", ⟨9, 9, 9, "dg"⟩)]
          [⟨"a.apworld", ⟨1, 2, 3⟩, "da"⟩, ⟨"b.apworld", ⟨5, 6, 7⟩, "db"⟩]).rehashed :=
  ((c4_refresh_files [("a.apworld", ⟨1, 2, 3, "da"⟩), ("gone.apworld", ⟨9, 9, 9, "dg"⟩)]
      [⟨"a.apworld", ⟨1, 2, 3⟩, "da"⟩, ⟨"b.apworld", ⟨5, 6, 7⟩, "db"⟩] (by decide)).2
    ⟨"a.apworld", ⟨1, 2, 3⟩, "da"⟩ (by decide) (by decide)).1 ⟨1, 2, 3, "da"⟩ (by decide)
    (by decide)

theorem update_scan_eq (asset_name : String) (cached_file : Option CachedFile)
    (releases : List Release) :
    update_scan asset_name cached_file releases =
      (first_with_asset asset_name releases).map (fun p => (matchesLocal p.1 cached_file, p.2)) := by
  induction releases with
  | nil => rfl
  | cons r rest ih =>
    unfold update_scan first_with_asset
    cases hl : List.lookup asset_name r.assets with
    | none => exact ih
    | some asset => rfl

theorem update_loop_orphans (cache : Cache) (scope : List String) :
    ∀ (l : List (String × WorldConfig)) (orph : List String) (dls : List Download)
      (orph' : List String) (dls' : List Download),
      update_loop cache scope l orph dls = .ok (orph', dls') →
      orph' = orph.filter (fun k => !(l.any (fun p => world_discard cache scope p k))) := by
  intro l
  induction l with
  | nil =>
    intro orph dls orph' dls' h
    have h2 := Except.ok.inj h
    have h3 : orph = orph' := congrArg Prod.fst h2
    rw [← h3]
    simp
  | cons p rest ih =>
    intro orph dls orph' dls' h
    unfold update_loop at h
    cases hpa : process_world cache scope p with
    | skip =>
      rw [hpa] at h
      rw [ih orph dls orph' dls' h]
      apply List.filter_congr
      intro k _
      simp [List.any_cons, world_discard, hpa]
    | discard m =>
      rw [hpa] at h
      rw [ih _ _ _ _ h, List.filter_filter]
      apply List.filter_congr
      intro k _
      by_cases hk : k = m <;> simp [List.any_cons, world_discard, hpa, hk]
    | fetchItem a d =>
      rw [hpa] at h
      rw [ih _ _ _ _ h, List.filter_filter]
      apply List.filter_congr
      intro k _
      by_cases hk : k = a <;> simp [List.any_cons, world_discard, hpa, hk]
    | fail e =>
      rw [hpa] at h
      exact absurd h (by simp)

theorem update_loop_downloads (cache : Cache) (scope : List String) :
    ∀ (l : List (String × WorldConfig)) (orph : List String) (dls : List Download)
      (orph' : List String) (dls' : List Download),
      update_loop cache scope l orph dls = .ok (orph', dls') →
      dls' = dls ++ l.filterMap (world_download_plan cache scope) := by
  intro l
  induction l with
  | nil =>
    intro orph dls orph' dls' h
    have h2 := Except.ok.inj h
    have h3 : dls = dls' := congrArg Prod.snd h2
    rw [← h3]
    simp
  | cons p rest ih =>
    intro orph dls orph' dls' h
    unfold update_loop at h
    cases hpa : process_world cache scope p with
    | skip =>
      rw [hpa] at h
      rw [ih _ _ _ _ h, List.filterMap_cons]
      simp [world_download_plan, hpa]
    | discard m =>
      rw [hpa] at h
      rw [ih _ _ _ _ h, List.filterMap_cons]
      simp [world_download_plan, hpa]
    | fetchItem a d =>
      rw [hpa] at h
      rw [ih _ _ _ _ h, List.filterMap_cons]
      cases d with
      | none => simp [world_download_plan, hpa]
      | some d' => simp [world_download_plan, hpa]
    | fail e =>
      rw [hpa] at h
      exact absurd h (by simp)

theorem update_loop_ok_process (cache : Cache) (scope : List String) :
    ∀ (l : List (String × WorldConfig)) (orph : List String) (dls : List Download)
      (res : List String × List Download),
      update_loop cache scope l orph dls = .ok res →
      ∀ p ∈ l, ∀ e, process_world cache scope p ≠ .fail e := by
  intro l
  induction l with
  | nil =>
    intro _ _ _ _ p hp
    exact absurd hp (List.not_mem_nil p)
  | cons q rest ih =>
    intro orph dls res h p hp e
    unfold update_loop at h
    cases hpa : process_world cache scope q with
    | skip =>
      rw [hpa] at h
      rcases List.mem_cons.mp hp with hq | hp'
      · rw [hq, hpa]; simp
      · exact ih _ _ _ h p hp' e
    | discard m =>
      rw [hpa] at h
      rcases List.mem_cons.mp hp with hq | hp'
      · rw [hq, hpa]; simp
      · exact ih _ _ _ h p hp' e
    | fetchItem a d =>
      rw [hpa] at h
      rcases List.mem_cons.mp hp with hq | hp'
      · rw [hq, hpa]; simp
      · exact ih _ _ _ h p hp' e
    | fail e' =>
      rw [hpa] at h
      exact absurd h (by simp)

theorem update_loop_ok_of_no_fail (cache : Cache) (scope : List String) :
    ∀ (l : List (String × WorldConfig)) (orph : List String) (dls : List Download),
      (∀ p ∈ l, ∀ e, process_world cache scope p ≠ .fail e) →
      ∃ orph', update_loop cache scope l orph dls =
        .ok (orph', dls ++ l.filterMap (world_download_plan cache scope)) := by
  intro l
  induction l with
  | nil =>
    intro orph dls _
    exact ⟨orph, by simp [update_loop]⟩
  | cons q rest ih =>
    intro orph dls hnf
    have hnf' : ∀ p ∈ rest, ∀ e, process_world cache scope p ≠ .fail e :=
      fun p hp e => hnf p (List.mem_cons_of_mem q hp) e
    cases hpa : process_world cache scope q with
    | skip =>
      obtain ⟨orph', ho⟩ := ih orph dls hnf'
      refine ⟨orph', ?_⟩
      unfold update_loop
      rw [hpa, ho]
      simp [List.filterMap_cons, world_download_plan, hpa]
    | discard m =>
      obtain ⟨orph', ho⟩ := ih (orph.filter (fun f => f ≠ m)) dls hnf'
      refine ⟨orph', ?_⟩
      unfold update_loop
      rw [hpa]
      show update_loop cache scope rest (orph.filter (fun f => f ≠ m)) dls = _
      rw [ho]
      simp [List.filterMap_cons, world_download_plan, hpa]
    | fetchItem a d =>
      obtain ⟨orph', ho⟩ := ih (orph.filter (fun f => f ≠ a)) (dls ++ d.toList) hnf'
      refine ⟨orph', ?_⟩
      unfold update_loop
      rw [hpa]
      show update_loop cache scope rest (orph.filter (fun f => f ≠ a)) (dls ++ d.toList) = _
      rw [ho]
      cases d with
      | none => simp [List.filterMap_cons, world_download_plan, hpa]
      | some d' => simp [List.filterMap_cons, world_download_plan, hpa]
    | fail e =>
      exact absurd hpa (hnf q (List.mem_cons_self q rest) e)

theorem process_world_discard_inv (cache : Cache) (scope : List String)
    (p : String × WorldConfig) (m : String)
    (h : process_world cache scope p = .discard m) :
    world_in_scope scope p.1 = true ∧ p.2.manual_file_name = some m := by
  unfold process_world at h
  by_cases hin : world_in_scope scope p.1 = true
  · rw [if_pos hin] at h
    refine ⟨hin, ?_⟩
    cases hm : p.2.manual_file_name with
    | some m' =>
      simp only [hm] at h
      injection h with h'
      rw [h']
    | none =>
      cases hu : p.2.github_user_and_repo with
      | none =>
        simp only [hm, hu] at h
        exact ItemAction.noConfusion h
      | some u =>
        cases hcr : List.lookup u cache.repos with
        | none =>
          simp only [hm, hu, hcr] at h
          exact ItemAction.noConfusion h
        | some cr =>
          cases ha : p.2.github_repo_asset with
          | none =>
            simp only [hm, hu, hcr, ha] at h
            exact ItemAction.noConfusion h
          | some a =>
            cases hs : update_scan a (List.lookup a cache.files) cr.releases with
            | none =>
              simp only [hm, hu, hcr, ha, hs] at h
              exact ItemAction.noConfusion h
            | some br =>
              obtain ⟨b, r⟩ := br
              cases b
              · simp only [hm, hu, hcr, ha, hs] at h
                rw [if_neg (by simp)] at h
                exact ItemAction.noConfusion h
              · simp only [hm, hu, hcr, ha, hs] at h
                rw [if_pos trivial] at h
                exact ItemAction.noConfusion h
  · rw [if_neg hin] at h
    exact absurd h (by simp)

theorem process_world_fetch_inv (cache : Cache) (scope : List String)
    (p : String × WorldConfig) (a : String) (d : Option Download)
    (h : process_world cache scope p = .fetchItem a d) :
    world_in_scope scope p.1 = true ∧ p.2.manual_file_name = none ∧
      p.2.github_repo_asset = some a ∧
      ∃ u cr b r, p.2.github_user_and_repo = some u ∧
        List.lookup u cache.repos = some cr ∧
        update_scan a (List.lookup a cache.files) cr.releases = some (b, r) ∧
        d = (if b = true then none else some ⟨u, r.tag_name, a⟩) := by
  unfold process_world at h
  by_cases hin : world_in_scope scope p.1 = true
  · rw [if_pos hin] at h
    refine ⟨hin, ?_⟩
    cases hm : p.2.manual_file_name with
    | some m' =>
      simp only [hm] at h
      exact ItemAction.noConfusion h
    | none =>
      refine ⟨rfl, ?_⟩
      cases hu : p.2.github_user_and_repo with
      | none =>
        simp only [hm, hu] at h
        exact ItemAction.noConfusion h
      | some u =>
        cases hcr : List.lookup u cache.repos with
        | none =>
          simp only [hm, hu, hcr] at h
          exact ItemAction.noConfusion h
        | some cr =>
          cases ha : p.2.github_repo_asset with
          | none =>
            simp only [hm, hu, hcr, ha] at h
            exact ItemAction.noConfusion h
          | some a' =>
            cases hs : update_scan a' (List.lookup a' cache.files) cr.releases with
            | none =>
              simp only [hm, hu, hcr, ha, hs] at h
              exact ItemAction.noConfusion h
            | some br =>
              obtain ⟨b, r⟩ := br
              cases b
              · simp only [hm, hu, hcr, ha, hs] at h
                rw [if_neg (by simp)] at h
                injection h with h1 h2
                subst h1
                exact ⟨rfl, u, cr, false, r, rfl, hcr, hs, by rw [← h2]; simp⟩
              · simp only [hm, hu, hcr, ha, hs] at h
                rw [if_pos trivial] at h
                injection h with h1 h2
                subst h1
                exact ⟨rfl, u, cr, true, r, rfl, hcr, hs, by rw [← h2]; simp⟩
  · rw [if_neg hin] at h
    exact absurd h (by simp)

theorem process_world_manual (cache : Cache) (scope : List String)
    (p : String × WorldConfig) (f : String)
    (hin : world_in_scope scope p.1 = true) (hf : p.2.manual_file_name = some f) :
    process_world cache scope p = .discard f := by
  unfold process_world
  rw [if_pos hin]
  simp only [hf]

theorem process_world_fetch_build (cache : Cache) (scope : List String)
    (p : String × WorldConfig) (u : String) (cr : CachedRepo) (a : String) (b : Bool)
    (r : Release)
    (hin : world_in_scope scope p.1 = true) (hman : p.2.manual_file_name = none)
    (hu : p.2.github_user_and_repo = some u) (hcr : List.lookup u cache.repos = some cr)
    (ha : p.2.github_repo_asset = some a)
    (hs : update_scan a (List.lookup a cache.files) cr.releases = some (b, r)) :
    process_world cache scope p =
      .fetchItem a (if b = true then none else some ⟨u, r.tag_name, a⟩) := by
  unfold process_world
  rw [if_pos hin]
  simp only [hman, hu, hcr, ha, hs]
  cases b
  · rfl
  · rfl

theorem world_discard_false_of_unreferenced (cache : Cache) (scope : List String)
    (p : String × WorldConfig) (k : String) (href : references p.2 k = false) :
    world_discard cache scope p k = false := by
  unfold world_discard
  cases hpa : process_world cache scope p with
  | skip => rfl
  | fail e => rfl
  | discard m =>
    obtain ⟨-, hm⟩ := process_world_discard_inv cache scope p m hpa
    unfold references at href
    have h2 : (p.2.manual_file_name == some k) = false := (Bool.or_eq_false_iff.mp href).2
    rw [hm] at h2
    have hne : ¬ (m = k) := by simpa using h2
    simp only [beq_eq_false_iff_ne, ne_eq]
    exact fun hh => hne hh.symm
  | fetchItem a d =>
    obtain ⟨-, -, ha, -⟩ := process_world_fetch_inv cache scope p a d hpa
    unfold references at href
    have h2 : (p.2.github_repo_asset == some k) = false := (Bool.or_eq_false_iff.mp href).1
    rw [ha] at h2
    have hne : ¬ (a = k) := by simpa using h2
    simp only [beq_eq_false_iff_ne, ne_eq]
    exact fun hh => hne hh.symm

theorem world_discard_manual (cache : Cache) (scope : List String)
    (p : String × WorldConfig) (f : String)
    (hin : world_in_scope scope p.1 = true) (hf : p.2.manual_file_name = some f) :
    world_discard cache scope p f = true := by
  unfold world_discard
  rw [process_world_manual cache scope p f hin hf]
  simp

theorem world_discard_fetch (cache : Cache) (scope : List String)
    (p : String × WorldConfig) (a : String) (d : Option Download)
    (hpa : process_world cache scope p = .fetchItem a d) :
    world_discard cache scope p a = true := by
  unfold world_discard
  rw [hpa]
  simp

theorem world_in_scope_nil (n : String) : world_in_scope [] n = true := rfl

theorem do_update_ok_inv (config : List (String × WorldConfig)) (cache : Cache)
    (scope : List String) (fetch : String → String → String → CachedFile)
    (out : UpdateOutcome) (h : do_update config cache scope fetch = .ok out) :
    ∃ orph1 dls1,
      update_loop cache scope config (cache.files.map Prod.fst) [] = .ok (orph1, dls1) ∧
      out = ⟨dls1, (if scope.length = 0 then sortedStrings orph1 else []),
        (if scope.length = 0 then sortedStrings orph1 else []).foldl dictErase
          (apply_downloads fetch cache.files dls1)⟩ := by
  unfold do_update at h
  cases hloop : update_loop cache scope config (cache.files.map Prod.fst) [] with
  | error e => rw [hloop] at h; exact absurd h (by simp)
  | ok pr =>
    obtain ⟨orph1, dls1⟩ := pr
    rw [hloop] at h
    exact ⟨orph1, dls1, rfl, (Except.ok.inj h).symm⟩

theorem mem_sortedStrings (l : List String) (k : String) :
    k ∈ sortedStrings l ↔ k ∈ l := by
  unfold sortedStrings
  exact (List.perm_insertionSort _ l).mem_iff

/-- Claim C5: under an unrestricted scope, every file in the local cache
referenced by no tracked item (neither as a repo asset name nor as a
manual file name) ends up in the deletion list once all items processed
successfully; under a restricted scope nothing is deleted; and a manually
managed item's file is never deleted even under full scope. -/
theorem c5_orphan_deletion (config : List (String × WorldConfig)) (cache : Cache)
    (fetch : String → String → String → CachedFile) :
    (∀ out, do_update config cache [] fetch = .ok out →
      ∀ k ∈ cache.files.map Prod.fst, (∀ p ∈ config, references p.2 k = false) →
        k ∈ out.deleted)
    ∧ (∀ (scope : List String) out, scope ≠ [] →
        do_update config cache scope fetch = .ok out → out.deleted = [])
    ∧ (∀ out, do_update config cache [] fetch = .ok out →
        ∀ p ∈ config, ∀ f, p.2.manual_file_name = some f → f ∉ out.deleted) := by
  refine ⟨?_, ?_, ?_⟩
  · intro out h k hk href
    obtain ⟨orph1, dls1, hloop, hout⟩ := do_update_ok_inv config cache [] fetch out h
    subst hout
    show k ∈ (if ([] : List String).length = 0 then sortedStrings orph1 else [])
    rw [if_pos (show ([] : List String).length = 0 from rfl)]
    refine (mem_sortedStrings orph1 k).mpr ?_
    rw [update_loop_orphans cache [] config _ _ _ _ hloop]
    refine List.mem_filter.mpr ⟨hk, ?_⟩
    have hany : config.any (fun p => world_discard cache [] p k) = false := by
      rw [List.any_eq_false]
      intro p hp
      rw [world_discard_false_of_unreferenced cache [] p k (href p hp)]
      simp
    rw [hany]
    rfl
  · intro scope out hne h
    obtain ⟨orph1, dls1, hloop, hout⟩ := do_update_ok_inv config cache scope fetch out h
    subst hout
    show (if scope.length = 0 then sortedStrings orph1 else []) = []
    exact if_neg (fun hc => hne (List.length_eq_zero.mp hc))
  · intro out h p hp f hf
    obtain ⟨orph1, dls1, hloop, hout⟩ := do_update_ok_inv config cache [] fetch out h
    subst hout
    show f ∉ (if ([] : List String).length = 0 then sortedStrings orph1 else [])
    rw [if_pos (show ([] : List String).length = 0 from rfl)]
    intro hmem
    have hmem' : f ∈ orph1 := (mem_sortedStrings orph1 f).mp hmem
    rw [update_loop_orphans cache [] config _ _ _ _ hloop] at hmem'
    have hcond := (List.mem_filter.mp hmem').2
    have hany : config.any (fun q => world_discard cache [] q f) = true :=
      List.any_eq_true.mpr ⟨p, hp, world_discard_manual cache [] p f (world_in_scope_nil p.1) hf⟩
    rw [hany] at hcond
    exact absurd hcond (by simp)

/-- Witness for claim C5 at a concrete state: the unreferenced file
"orphan.apworld" is deleted by an unrestricted update while the configured
asset survives. -/
theorem c5_orphan_deletion_witness :
    "orphan.apworld" ∈
      (UpdateOutcome.mk [] ["orphan.apworld"] [("a.apworld", ⟨1, 5, 1, "da"⟩)]).deleted :=
  (c5_orphan_deletion [("w", ⟨some "u/r", some "a.apworld", none⟩)]
      ⟨[("a.apworld", ⟨1, 5, 1, "da"⟩), ("orphan.apworld", ⟨2, 6, 2, "do"⟩)],
       [("u/r", ⟨0, [⟨"v1", "", "", "", [("a.apworld", ⟨5, some "da"⟩)]⟩]⟩)]⟩
      (fun _ _ _ => ⟨0, 0, 0, ""⟩)).1
    ⟨[], ["orphan.apworld"], [("a.apworld", ⟨1, 5, 1, "da"⟩)]⟩ (by decide)
    "orphan.apworld" (by decide) (by decide)

/-- Claim C10: an update run on a cache produced by `refresh_files` only
deletes names drawn from the cache's keys (never from a direct directory
listing), and none of them is hidden (starts with "_" or ".") — so in
particular the persisted cache document `.cache_state.json` survives every
unrestricted update. -/
theorem c10_hidden_never_deleted (files0 : List (String × CachedFile)) (entries : List DirEntry)
    (hnd : (entries.map DirEntry.name).Nodup) (config : List (String × WorldConfig))
    (repos : List (String × CachedRepo)) (scope : List String)
    (fetch : String → String → String → CachedFile) (out : UpdateOutcome)
    (h : do_update config ⟨(refresh_files files0 entries).files, repos⟩ scope fetch = .ok out) :
    (∀ n ∈ out.deleted, n ∈ (refresh_files files0 entries).files.map Prod.fst)
    ∧ ∀ n ∈ out.deleted, is_hidden n = false := by
  have hsub : ∀ n ∈ out.deleted,
      n ∈ (refresh_files files0 entries).files.map Prod.fst := by
    intro n hn
    obtain ⟨orph1, dls1, hloop, hout⟩ :=
      do_update_ok_inv config ⟨(refresh_files files0 entries).files, repos⟩ scope fetch out h
    subst hout
    by_cases hsc : scope.length = 0
    · rw [show (⟨dls1, (if scope.length = 0 then sortedStrings orph1 else []), _⟩ :
          UpdateOutcome).deleted = (if scope.length = 0 then sortedStrings orph1 else [])
          from rfl, if_pos hsc] at hn
      have hn' : n ∈ orph1 := (mem_sortedStrings orph1 n).mp hn
      rw [update_loop_orphans _ scope config _ _ _ _ hloop] at hn'
      exact (List.mem_filter.mp hn').1
    · rw [show (⟨dls1, (if scope.length = 0 then sortedStrings orph1 else []), _⟩ :
          UpdateOutcome).deleted = (if scope.length = 0 then sortedStrings orph1 else [])
          from rfl, if_neg hsc] at hn
      exact absurd hn (List.not_mem_nil n)
  refine ⟨hsub, ?_⟩
  intro n hn
  have hkey := hsub n hn
  obtain ⟨h1, h2, h3, h4, h5⟩ := refresh_fold_spec files0 entries hnd
  rw [← lookup_isSome_iff_mem_keys] at hkey
  have hlk : List.lookup n (refresh_files files0 entries).files =
      if n ∈ (refresh_fold files0 entries).outstanding_keys then none
      else List.lookup n (refresh_fold files0 entries).files :=
    lookup_foldl_dictErase _ _ _
  rw [hlk] at hkey
  by_cases hmem : n ∈ (refresh_fold files0 entries).outstanding_keys
  · rw [if_pos hmem] at hkey
    exact absurd hkey (by simp)
  · rw [if_neg hmem] at hkey
    rw [h1 n] at hkey
    by_cases hscan : scannedB entries n = true
    · rcases (scannedB_iff entries n).mp hscan with ⟨e, _, hhid, hname⟩
      rw [← hname]
      exact hhid
    · have hscan' : scannedB entries n = false := by
        revert hscan; cases scannedB entries n <;> simp
      rw [hscan'] at hkey
      simp only [Bool.or_false] at hkey
      have hk0 : n ∈ files0.map Prod.fst := (lookup_isSome_iff_mem_keys files0 n).mp hkey
      exact absurd (by
        rw [h4]
        exact List.mem_filter.mpr ⟨hk0, by rw [hscan']; rfl⟩) hmem

/-- Witness for claim C10: after refreshing an empty cache against a
directory holding one file and running an unrestricted update with an
empty config, the single deleted name is a cache key and is not hidden. -/
theorem c10_hidden_never_deleted_witness :
    (∀ n ∈ (UpdateOutcome.mk [] ["x.apworld"] []).deleted,
      n ∈ (refresh_files [] [⟨"x.apworld", ⟨1, 1, 1⟩, "dx"⟩]).files.map Prod.fst)
    ∧ ∀ n ∈ (UpdateOutcome.mk [] ["x.apworld"] []).deleted, is_hidden n = false :=
  c10_hidden_never_deleted [] [⟨"x.apworld", ⟨1, 1, 1⟩, "dx"⟩] (by decide) [] [] []
    (fun _ _ _ => ⟨0, 0, 0, ""⟩) ⟨[], ["x.apworld"], []⟩ (by decide)

theorem lookup_mem {α : Type} (m : List (String × α)) (k : String) (v : α)
    (h : List.lookup k m = some v) : (k, v) ∈ m := by
  induction m with
  | nil => simp [List.lookup] at h
  | cons p rest ih =>
    obtain ⟨a, b⟩ := p
    rw [List.lookup_cons] at h
    cases hbeq : (k == a) with
    | true =>
      rw [hbeq] at h
      have hk : k = a := beq_iff_eq.mp hbeq
      have hv : b = v := by injection h
      rw [← hk, ← hv]
      exact List.mem_cons_self ..
    | false =>
      rw [hbeq] at h
      exact List.mem_cons_of_mem _ (ih h)

theorem first_with_asset_mem (a : String) :
    ∀ (rels : List Release) (asst : Asset) (r : Release),
      first_with_asset a rels = some (asst, r) → r ∈ rels ∧ (a, asst) ∈ r.assets := by
  intro rels
  induction rels with
  | nil => intro asst r h; exact absurd h (by simp [first_with_asset])
  | cons rel rest ih =>
    intro asst r h
    unfold first_with_asset at h
    cases hl : List.lookup a rel.assets with
    | none =>
      rw [hl] at h
      obtain ⟨hm, ha⟩ := ih asst r h
      exact ⟨List.mem_cons_of_mem _ hm, ha⟩
    | some asset =>
      rw [hl] at h
      have h' := Option.some.inj h
      have h1 : asset = asst := congrArg Prod.fst h'
      have h2 : rel = r := congrArg Prod.snd h'
      subst h2
      rw [← h1]
      exact ⟨List.mem_cons_self .., lookup_mem rel.assets a asset hl⟩

theorem lookup_apply_downloads (fetch : String → String → String → CachedFile) (a : String) :
    ∀ (ds : List Download) (files : List (String × CachedFile)),
      List.lookup a (apply_downloads fetch files ds) =
        match (ds.filter (fun d => d.asset_name == a)).getLast? with
        | some d => some (fetch d.user_and_repo d.tag_name d.asset_name)
        | none => List.lookup a files := by
  intro ds
  induction ds using List.reverseRecOn with
  | nil => intro files; rfl
  | append_singleton ds d ih =>
    intro files
    have happ : apply_downloads fetch files (ds ++ [d]) =
        dictSet (apply_downloads fetch files ds) d.asset_name
          (fetch d.user_and_repo d.tag_name d.asset_name) := by
      unfold apply_downloads
      rw [List.foldl_concat]
    rw [happ, lookup_dictSet, List.filter_append]
    by_cases hda : (d.asset_name == a) = true
    · have ha : a = d.asset_name := (beq_iff_eq.mp hda).symm
      rw [if_pos ha]
      have hone : List.filter (fun d' => d'.asset_name == a) [d] = [d] := by
        simp [List.filter_cons, hda]
      rw [hone, List.getLast?_concat]
    · have hda' : (d.asset_name == a) = false := by
        revert hda; cases (d.asset_name == a) <;> simp
      have ha : ¬ (a = d.asset_name) := by
        intro hh
        rw [hh] at hda'
        simp at hda'
      rw [if_neg ha]
      have hnil : List.filter (fun d' => d'.asset_name == a) [d] = [] := by
        simp [List.filter_cons, hda']
      rw [hnil, List.append_nil]
      exact ih files

theorem plan_asset (cache : Cache) (scope : List String) (p : String × WorldConfig)
    (d : Download) (h : world_download_plan cache scope p = some d) :
    scope_asset_of scope p = some d.asset_name := by
  unfold world_download_plan at h
  cases hpa : process_world cache scope p with
  | skip => simp only [hpa] at h; exact absurd h (by simp)
  | discard m => simp only [hpa] at h; exact absurd h (by simp)
  | fail e => simp only [hpa] at h; exact absurd h (by simp)
  | fetchItem a dd =>
    simp only [hpa] at h
    obtain ⟨hin, hman, ha, u, cr, b, r, hu, hcr, hs, hdd⟩ :=
      process_world_fetch_inv cache scope p a dd hpa
    cases b
    · have hdd' : dd = some ⟨u, r.tag_name, a⟩ := by simpa using hdd
      rw [hdd'] at h
      have hda : d = ⟨u, r.tag_name, a⟩ := (Option.some.inj h).symm
      unfold scope_asset_of
      rw [if_pos (by rw [hin, hman]; rfl), ha, hda]
    · have hdd' : dd = none := by simpa using hdd
      rw [hdd'] at h
      exact absurd h (by simp)

theorem download_asset_mem_scope_assets (cache : Cache) (scope : List String)
    (config : List (String × WorldConfig)) (d : Download)
    (hd : d ∈ config.filterMap (world_download_plan cache scope)) :
    d.asset_name ∈ scope_assets scope config := by
  rcases List.mem_filterMap.mp hd with ⟨x, hx, hpx⟩
  exact List.mem_filterMap.mpr ⟨x, hx, plan_asset cache scope x d hpx⟩

theorem downloads_filter_eq (cache : Cache) (scope : List String) :
    ∀ (config : List (String × WorldConfig)), (scope_assets scope config).Nodup →
      ∀ p ∈ config, ∀ a, scope_asset_of scope p = some a →
        (config.filterMap (world_download_plan cache scope)).filter
            (fun d => d.asset_name == a) =
          (world_download_plan cache scope p).toList := by
  intro config
  induction config with
  | nil => intro _ p hp; exact absurd hp (List.not_mem_nil p)
  | cons q rest ih =>
    intro hnd p hp a hpa
    have hcons : scope_assets scope (q :: rest) =
        match scope_asset_of scope q with
        | some v => v :: scope_assets scope rest
        | none => scope_assets scope rest := by
      unfold scope_assets
      rw [List.filterMap_cons]
      cases scope_asset_of scope q <;> rfl
    rcases List.mem_cons.mp hp with hq | hp'
    · subst hq
      have hnotin : a ∉ scope_assets scope rest := by
        rw [hcons] at hnd
        rw [hpa] at hnd
        exact (List.nodup_cons.mp hnd).1
      have hrest_nil : (rest.filterMap (world_download_plan cache scope)).filter
          (fun d' => d'.asset_name == a) = [] := by
        rw [List.filter_eq_nil_iff]
        intro d' hd' hbeq
        have hm := download_asset_mem_scope_assets cache scope rest d' hd'
        rw [beq_iff_eq.mp hbeq] at hm
        exact hnotin hm
      cases hfq : world_download_plan cache scope p with
      | some d =>
        have hd : scope_asset_of scope p = some d.asset_name := plan_asset _ _ _ _ hfq
        have had : d.asset_name = a := by
          rw [hd] at hpa
          injection hpa
        simp only [List.filterMap_cons, hfq]
        rw [List.filter_cons, if_pos (by simp [had]), hrest_nil]
        rfl
      | none =>
        simp only [List.filterMap_cons, hfq]
        rw [hrest_nil]
        rfl
    · have hnd' : (scope_assets scope rest).Nodup := by
        rw [hcons] at hnd
        cases hgq : scope_asset_of scope q with
        | none => rw [hgq] at hnd; exact hnd
        | some v => rw [hgq] at hnd; exact (List.nodup_cons.mp hnd).2
      have hamem : a ∈ scope_assets scope rest := List.mem_filterMap.mpr ⟨p, hp', hpa⟩
      cases hfq : world_download_plan cache scope q with
      | none =>
        simp only [List.filterMap_cons, hfq]
        exact ih hnd' p hp' a hpa
      | some d =>
        have hdq : scope_asset_of scope q = some d.asset_name := plan_asset _ _ _ _ hfq
        have hda : ¬ (d.asset_name = a) := by
          intro hh
          rw [hcons, hdq] at hnd
          have hni := (List.nodup_cons.mp hnd).1
          rw [hh] at hni
          exact hni hamem
        simp only [List.filterMap_cons, hfq]
        rw [List.filter_cons, if_neg (by simp [hda])]
        exact ih hnd' p hp' a hpa

theorem process_world_skip_inv (cache : Cache) (scope : List String)
    (p : String × WorldConfig) (h : process_world cache scope p = .skip) :
    world_in_scope scope p.1 = false := by
  by_cases hin : world_in_scope scope p.1 = true
  · exfalso
    unfold process_world at h
    rw [if_pos hin] at h
    cases hm : p.2.manual_file_name with
    | some m => simp only [hm] at h; exact ItemAction.noConfusion h
    | none =>
      cases hu : p.2.github_user_and_repo with
      | none => simp only [hm, hu] at h; exact ItemAction.noConfusion h
      | some u =>
        cases hcr : List.lookup u cache.repos with
        | none => simp only [hm, hu, hcr] at h; exact ItemAction.noConfusion h
        | some cr =>
          cases ha : p.2.github_repo_asset with
          | none => simp only [hm, hu, hcr, ha] at h; exact ItemAction.noConfusion h
          | some a =>
            cases hs : update_scan a (List.lookup a cache.files) cr.releases with
            | none => simp only [hm, hu, hcr, ha, hs] at h; exact ItemAction.noConfusion h
            | some br =>
              obtain ⟨b, r⟩ := br
              cases b
              · simp only [hm, hu, hcr, ha, hs] at h
                rw [if_neg (by simp)] at h
                exact ItemAction.noConfusion h
              · simp only [hm, hu, hcr, ha, hs] at h
                rw [if_pos trivial] at h
                exact ItemAction.noConfusion h
  · revert hin
    cases world_in_scope scope p.1 <;> simp

theorem process_world_skip_build (cache : Cache) (scope : List String)
    (p : String × WorldConfig) (h : world_in_scope scope p.1 = false) :
    process_world cache scope p = .skip := by
  unfold process_world
  rw [if_neg (by simp [h])]

/-- Claim C7 (amended): running update twice with the same scope, the same
configuration and the same remote release data performs zero downloads on
the second run — provided no two in-scope repo-sourced items share an
asset file name, and downloads yield content matching the release
metadata. -/
theorem c7_second_run_no_downloads (config : List (String × WorldConfig)) (cache : Cache)
    (scope : List String) (fetch : String → String → String → CachedFile)
    (out1 : UpdateOutcome)
    (hnd : (scope_assets scope config).Nodup)
    (hfc : fetch_consistent cache.repos fetch)
    (h1 : do_update config cache scope fetch = .ok out1) :
    ∃ out2, do_update config ⟨out1.files_after, cache.repos⟩ scope fetch = .ok out2 ∧
      out2.downloads = [] := by
  obtain ⟨orph1, dls1, hloop, hout⟩ := do_update_ok_inv config cache scope fetch out1 h1
  have hdls1 : dls1 = config.filterMap (world_download_plan cache scope) := by
    have h := update_loop_downloads cache scope config _ _ _ _ hloop
    simpa using h
  have hfa : out1.files_after =
      (if scope.length = 0 then sortedStrings orph1 else []).foldl dictErase
        (apply_downloads fetch cache.files dls1) := by rw [hout]
  have hnf1 := update_loop_ok_process cache scope config _ _ _ hloop
  have hkey : ∀ p ∈ config, ∀ a d, process_world cache scope p = .fetchItem a d →
      process_world (⟨out1.files_after, cache.repos⟩ : Cache) scope p = .fetchItem a none := by
    intro p hp a d hpa
    obtain ⟨hin, hman, ha, u, cr, b, r, hu, hcr, hs, hd⟩ :=
      process_world_fetch_inv cache scope p a d hpa
    have hfw' : ∃ asst, first_with_asset a cr.releases = some (asst, r) ∧
        matchesLocal asst (List.lookup a cache.files) = b := by
      rw [update_scan_eq] at hs
      cases hfa2 : first_with_asset a cr.releases with
      | none => rw [hfa2] at hs; exact absurd hs (by simp)
      | some pr2 =>
        obtain ⟨asst, r'⟩ := pr2
        rw [hfa2] at hs
        simp only [Option.map_some'] at hs
        have hs' := Option.some.inj hs
        have hb' : matchesLocal asst (List.lookup a cache.files) = b := congrArg Prod.fst hs'
        have hr' : r' = r := congrArg Prod.snd hs'
        subst hr'
        exact ⟨asst, rfl, hb'⟩
    obtain ⟨asst, hfw, hmb⟩ := hfw'
    have hdisc : world_discard cache scope p a = true := world_discard_fetch cache scope p a d hpa
    have hnotorph : a ∉ orph1 := by
      rw [update_loop_orphans cache scope config _ _ _ _ hloop]
      intro hc
      have hcond := (List.mem_filter.mp hc).2
      have hany : config.any (fun q => world_discard cache scope q a) = true :=
        List.any_eq_true.mpr ⟨p, hp, hdisc⟩
      rw [hany] at hcond
      exact absurd hcond (by simp)
    have hnotdel : a ∉ (if scope.length = 0 then sortedStrings orph1 else []) := by
      by_cases hsc : scope.length = 0
      · rw [if_pos hsc]
        intro hc
        exact hnotorph ((mem_sortedStrings orph1 a).mp hc)
      · rw [if_neg hsc]
        exact List.not_mem_nil a
    have hlook2 : List.lookup a out1.files_after =
        List.lookup a (apply_downloads fetch cache.files dls1) := by
      rw [hfa, lookup_foldl_dictErase, if_neg hnotdel]
    have hsa : scope_asset_of scope p = some a := by
      unfold scope_asset_of
      rw [if_pos (by rw [hin, hman]; rfl), ha]
    have hfilter : dls1.filter (fun d' => d'.asset_name == a) =
        (world_download_plan cache scope p).toList := by
      rw [hdls1]
      exact downloads_filter_eq cache scope config hnd p hp a hsa
    have hplan : world_download_plan cache scope p = d := by
      unfold world_download_plan
      rw [hpa]
    cases b
    · have hdsome : d = some ⟨u, r.tag_name, a⟩ := by simpa using hd
      have hcf2 : List.lookup a out1.files_after = some (fetch u r.tag_name a) := by
        rw [hlook2, lookup_apply_downloads, hfilter, hplan, hdsome]
        rfl
      have hmem_repo : (u, cr) ∈ cache.repos := lookup_mem cache.repos u cr hcr
      obtain ⟨hrmem, hamem⟩ := first_with_asset_mem a cr.releases asst r hfw
      have hhc := List.all_eq_true.mp
        (List.all_eq_true.mp (List.all_eq_true.mp hfc (u, cr) hmem_repo) r hrmem) (a, asst) hamem
      have hmatch : matchesLocal asst (some (fetch u r.tag_name a)) = true := by
        unfold matchesLocal
        cases hsha : asst.sha256_hex with
        | some hdig =>
          simp only [hsha] at hhc
          have hhc' := beq_iff_eq.mp hhc
          simp [hsha, hhc']
        | none =>
          simp only [hsha] at hhc
          have hhc' := beq_iff_eq.mp hhc
          simp [hsha, hhc']
      have hs2 : update_scan a (List.lookup a out1.files_after) cr.releases = some (true, r) := by
        rw [update_scan_eq, hfw]
        simp only [Option.map_some']
        rw [hcf2, hmatch]
      have hbuild := process_world_fetch_build (⟨out1.files_after, cache.repos⟩ : Cache) scope p
        u cr a true r hin hman hu hcr ha hs2
      simpa using hbuild
    · have hdnone : d = none := by simpa using hd
      have hcf2 : List.lookup a out1.files_after = List.lookup a cache.files := by
        rw [hlook2, lookup_apply_downloads, hfilter, hplan, hdnone]
        rfl
      have hs2 : update_scan a (List.lookup a out1.files_after) cr.releases = some (true, r) := by
        rw [update_scan_eq, hfw]
        simp only [Option.map_some']
        rw [hcf2, hmb]
      have hbuild := process_world_fetch_build (⟨out1.files_after, cache.repos⟩ : Cache) scope p
        u cr a true r hin hman hu hcr ha hs2
      simpa using hbuild
  have hnf2 : ∀ p ∈ config, ∀ e,
      process_world (⟨out1.files_after, cache.repos⟩ : Cache) scope p ≠ .fail e := by
    intro p hp e hfail
    cases hpa : process_world cache scope p with
    | skip =>
      rw [process_world_skip_build (⟨out1.files_after, cache.repos⟩ : Cache) scope p
        (process_world_skip_inv cache scope p hpa)] at hfail
      exact ItemAction.noConfusion hfail
    | discard m =>
      obtain ⟨hin, hm⟩ := process_world_discard_inv cache scope p m hpa
      rw [process_world_manual (⟨out1.files_after, cache.repos⟩ : Cache) scope p m hin hm] at hfail
      exact ItemAction.noConfusion hfail
    | fetchItem a d =>
      rw [hkey p hp a d hpa] at hfail
      exact ItemAction.noConfusion hfail
    | fail e' => exact hnf1 p hp e' hpa
  obtain ⟨orph2, hloop2⟩ := update_loop_ok_of_no_fail (⟨out1.files_after, cache.repos⟩ : Cache)
    scope config ((⟨out1.files_after, cache.repos⟩ : Cache).files.map Prod.fst) [] hnf2
  have hplans2 : ∀ p ∈ config,
      world_download_plan (⟨out1.files_after, cache.repos⟩ : Cache) scope p = none := by
    intro p hp
    unfold world_download_plan
    cases hpa : process_world cache scope p with
    | skip =>
      rw [process_world_skip_build (⟨out1.files_after, cache.repos⟩ : Cache) scope p
        (process_world_skip_inv cache scope p hpa)]
    | discard m =>
      obtain ⟨hin, hm⟩ := process_world_discard_inv cache scope p m hpa
      rw [process_world_manual (⟨out1.files_after, cache.repos⟩ : Cache) scope p m hin hm]
    | fetchItem a d =>
      rw [hkey p hp a d hpa]
    | fail e => exact absurd hpa (hnf1 p hp e)
  have hfm2 : config.filterMap
      (world_download_plan (⟨out1.files_after, cache.repos⟩ : Cache) scope) = [] :=
    List.filterMap_eq_nil_iff.mpr hplans2
  rw [hfm2] at hloop2
  simp only [List.append_nil] at hloop2
  refine ⟨⟨[], (if scope.length = 0 then sortedStrings orph2 else []),
      (if scope.length = 0 then sortedStrings orph2 else []).foldl dictErase
        (apply_downloads fetch out1.files_after [])⟩, ?_, rfl⟩
  unfold do_update
  rw [hloop2]

/-- Claim C7 counterexample: two tracked items share the asset file name
"a.apworld" but point at different repos publishing different digests.
The first run downloads both (the second overwrites the first on disk);
on the second run — with nothing changed — the first item no longer
matches the file on disk and downloads again: one download, not zero. -/
theorem c7_counterexample :
    ((do_update
          [("w1", ⟨some "u1/r1", some "a.apworld", none⟩),
           ("w2", ⟨some "u2/r2", some "a.apworld", none⟩)]
          ⟨[], [("u1/r1", ⟨0, [⟨"v1", "", "", "", [("a.apworld", ⟨1, some "d1"⟩)]⟩]⟩),
                ("u2/r2", ⟨0, [⟨"v1", "", "", "", [("a.apworld", ⟨2, some "d2"⟩)]⟩]⟩)]⟩
          [] (fun u _ _ => if u = "u1/r1" then ⟨10, 1, 10, "d1"⟩ else ⟨20, 2, 20, "d2"⟩)).toOption.bind
        (fun out1 =>
          (do_update
              [("w1", ⟨some "u1/r1", some "a.apworld", none⟩),
               ("w2", ⟨some "u2/r2", some "a.apworld", none⟩)]
              ⟨out1.files_after,
               [("u1/r1", ⟨0, [⟨"v1", "", "", "", [("a.apworld", ⟨1, some "d1"⟩)]⟩]⟩),
                ("u2/r2", ⟨0, [⟨"v1", "", "", "", [("a.apworld", ⟨2, some "d2"⟩)]⟩]⟩)]⟩
              [] (fun u _ _ =>
                if u = "u1/r1" then ⟨10, 1, 10, "d1"⟩ else ⟨20, 2, 20, "d2"⟩)).toOption.map
            (fun out2 => out2.downloads.length))) = some 1
    ∧ (1 : Nat) ≠ 0 := by
  constructor
  · decide
  · decide

/-- Witness for the amended claim C7: one configured item, downloaded on
the first run; the second run performs zero downloads. -/
theorem c7_second_run_no_downloads_witness :
    ∃ out2, do_update [("w", ⟨some "u/r", some "a.apworld", none⟩)]
        ⟨(UpdateOutcome.mk [⟨"u/r", "v1", "a.apworld"⟩] []
            [("a.apworld", ⟨7, 5, 7, "d1"⟩)]).files_after,
          (Cache.mk [] [("u/r", ⟨0, [⟨"v1", "", "", "",
            [("a.apworld", ⟨5, some "d1"⟩)]⟩]⟩)]).repos⟩
        [] (fun _ _ _ => ⟨7, 5, 7, "d1"⟩) = .ok out2 ∧ out2.downloads = [] :=
  c7_second_run_no_downloads [("w", ⟨some "u/r", some "a.apworld", none⟩)]
    ⟨[], [("u/r", ⟨0, [⟨"v1", "", "", "", [("a.apworld", ⟨5, some "d1"⟩)]⟩]⟩)]⟩
    [] (fun _ _ _ => ⟨7, 5, 7, "d1"⟩)
    ⟨[⟨"u/r", "v1", "a.apworld"⟩], [], [("a.apworld", ⟨7, 5, 7, "d1"⟩)]⟩
    (by decide) (by decide) (by decide)

theorem dec_cached_file_enc (f : CachedFile) : dec_cached_file (enc_cached_file f) = some f := rfl

theorem dec_asset_enc (a : Asset) : dec_asset (enc_asset a) = some a := by
  obtain ⟨sz, sha⟩ := a
  cases sha <;> rfl

theorem dec_pairs_enc {α : Type} (dec : Json → Option α) (enc : α → Json) (g : α → α)
    (h : ∀ v, dec (enc v) = some (g v)) :
    ∀ m : List (String × α), dec_pairs dec (m.map (fun p => (p.1, enc p.2))) =
      some (m.map (fun p => (p.1, g p.2))) := by
  intro m
  induction m with
  | nil => rfl
  | cons p rest ih =>
    obtain ⟨k, v⟩ := p
    show (match dec (enc v), dec_pairs dec (rest.map (fun p => (p.1, enc p.2))) with
          | some v, some vs => some ((k, v) :: vs)
          | _, _ => none) = _
    rw [h v, ih]
    rfl

theorem dec_list_enc {α : Type} (dec : Json → Option α) (enc : α → Json) (g : α → α)
    (h : ∀ v, dec (enc v) = some (g v)) :
    ∀ l : List α, dec_list dec (l.map enc) = some (l.map g) := by
  intro l
  induction l with
  | nil => rfl
  | cons v rest ih =>
    show (match dec (enc v), dec_list dec (rest.map enc) with
          | some v, some vs => some (v :: vs)
          | _, _ => none) = _
    rw [h v, ih]
    rfl

theorem dec_release_enc (r : Release) : dec_release (enc_release r) = some (canon_release r) := by
  obtain ⟨tn, ts, nm, bd, assets⟩ := r
  have h := dec_pairs_enc dec_asset enc_asset id (fun v => dec_asset_enc v) (sortByKey assets)
  show (match dec_pairs dec_asset ((sortByKey assets).map (fun p => (p.1, enc_asset p.2))) with
        | some as2 => some (⟨tn, ts, nm, bd, as2⟩ : Release)
        | none => none) = _
  rw [h]
  show some (⟨tn, ts, nm, bd, (sortByKey assets).map (fun p => (p.1, p.2))⟩ : Release) = _
  have hmap : (sortByKey assets).map (fun p => (p.1, p.2)) = sortByKey assets := by
    have hfun : (fun (p : String × Asset) => (p.1, p.2)) = id := funext (fun p => rfl)
    rw [hfun, List.map_id]
  rw [hmap]
  rfl

theorem dec_cached_repo_enc (c : CachedRepo) :
    dec_cached_repo (enc_cached_repo c) = some (canon_cached_repo c) := by
  obtain ⟨lc, rels⟩ := c
  have h := dec_list_enc dec_release enc_release canon_release (fun v => dec_release_enc v) rels
  show (match dec_list dec_release (rels.map enc_release) with
        | some rs => some (⟨lc, rs⟩ : CachedRepo)
        | none => none) = _
  rw [h]
  rfl

theorem lookup_of_mem_nodup {α : Type} (m : List (String × α)) (k : String) (v : α)
    (hnd : (m.map Prod.fst).Nodup) (hm : (k, v) ∈ m) : List.lookup k m = some v := by
  induction m with
  | nil => exact absurd hm (List.not_mem_nil _)
  | cons p rest ih =>
    obtain ⟨a, b⟩ := p
    rw [List.map_cons] at hnd
    rcases List.mem_cons.mp hm with heq | hm'
    · cases heq
      rw [List.lookup_cons]
      simp
    · have hne : (k == a) = false := by
        have hknd : a ∉ rest.map Prod.fst := (List.nodup_cons.mp hnd).1
        have hkmem : k ∈ rest.map Prod.fst := List.mem_map.mpr ⟨(k, v), hm', rfl⟩
        refine beq_eq_false_iff_ne.mpr ?_
        intro hh
        rw [hh] at hkmem
        exact hknd hkmem
      rw [List.lookup_cons, hne]
      exact ih (List.nodup_cons.mp hnd).2 hm'

theorem dict_eq_by_sorted {α : Type} (eqv : α → α → Bool) (f : α → α) (m : List (String × α))
    (hnd : (m.map Prod.fst).Nodup) (hv : ∀ p ∈ m, eqv p.2 (f p.2) = true) :
    dict_eq_by eqv m ((sortByKey m).map (fun p => (p.1, f p.2))) = true := by
  have hperm : (sortByKey m).Perm m := by
    unfold sortByKey
    exact List.perm_insertionSort _ m
  unfold dict_eq_by
  rw [Bool.and_eq_true]
  constructor
  · rw [List.length_map]
    exact beq_iff_eq.mpr hperm.length_eq.symm
  · rw [List.all_eq_true]
    intro p hp
    have hps : p ∈ sortByKey m := hperm.mem_iff.mpr hp
    have hmem2 : (p.1, f p.2) ∈ (sortByKey m).map (fun q => (q.1, f q.2)) :=
      List.mem_map.mpr ⟨p, hps, rfl⟩
    have hnd2 : (((sortByKey m).map (fun q => (q.1, f q.2))).map Prod.fst).Nodup := by
      have hkeys : ((sortByKey m).map (fun q => (q.1, f q.2))).map Prod.fst =
          (sortByKey m).map Prod.fst := by
        rw [List.map_map]
        rfl
      rw [hkeys]
      exact (hperm.map Prod.fst).nodup_iff.mpr hnd
    have hlk := lookup_of_mem_nodup _ p.1 (f p.2) hnd2 hmem2
    show (match List.lookup p.1 ((sortByKey m).map (fun q => (q.1, f q.2))) with
          | some v => eqv p.2 v
          | none => false) = true
    rw [hlk]
    exact hv p hp

theorem zip_map_self {α : Type} (g : α → α) :
    ∀ l : List α, l.zip (l.map g) = l.map (fun x => (x, g x)) := by
  intro l
  induction l with
  | nil => rfl
  | cons x rest ih => simp [ih]

theorem release_eqb_canon (r : Release) (hnd : (r.assets.map Prod.fst).Nodup) :
    release_eqb r (canon_release r) = true := by
  show (r.tag_name == r.tag_name && r.timestamp == r.timestamp && r.name == r.name &&
      r.body == r.body && dict_eq_by (fun a b => a == b) r.assets (sortByKey r.assets)) = true
  have h := dict_eq_by_sorted (fun a b => a == b) id r.assets hnd (fun p _ => by simp)
  rw [show (sortByKey r.assets).map (fun p => (p.1, id p.2)) = sortByKey r.assets from by
      have hfun : (fun (p : String × Asset) => (p.1, id p.2)) = id := funext (fun p => rfl)
      rw [hfun, List.map_id]] at h
  simp [h]

theorem cached_repo_eqb_canon (c : CachedRepo)
    (hnd : ∀ r ∈ c.releases, (r.assets.map Prod.fst).Nodup) :
    cached_repo_eqb c (canon_cached_repo c) = true := by
  show (c.last_checked == c.last_checked &&
      c.releases.length == (c.releases.map canon_release).length &&
      (c.releases.zip (c.releases.map canon_release)).all (fun p => release_eqb p.1 p.2)) = true
  rw [zip_map_self canon_release c.releases]
  rw [Bool.and_eq_true, Bool.and_eq_true]
  refine ⟨⟨by simp, by simp⟩, ?_⟩
  rw [List.all_eq_true]
  intro p hp
  rcases List.mem_map.mp hp with ⟨r, hr, hpr⟩
  rw [← hpr]
  exact release_eqb_canon r (hnd r hr)

/-- Claim C6: saving any well-formed cache (the maps are dicts, so their
keys are distinct) to the cache document and loading that document back
yields a cache that is Python-structurally equal to the original: equal
file and repo dicts, release lists preserved in order, and digest
presence/absence preserved.  The reloaded value is the canonical form of
the original — every object's keys sorted, exactly what `sort_keys=True`
wrote. -/
theorem c6_cache_roundtrip (c : Cache) (hwf : cache_wf c) :
    cache_load (cache_save c) = some (canon_cache c) ∧ cache_eqb c (canon_cache c) = true := by
  obtain ⟨hnd_files, hnd_repos, hnd_assets⟩ := hwf
  constructor
  · have hfs := dec_pairs_enc dec_cached_file enc_cached_file id
      (fun v => dec_cached_file_enc v) (sortByKey c.files)
    have hrs := dec_pairs_enc dec_cached_repo enc_cached_repo canon_cached_repo
      (fun v => dec_cached_repo_enc v) (sortByKey c.repos)
    show (match
        dec_pairs dec_cached_file ((sortByKey c.files).map (fun p => (p.1, enc_cached_file p.2))),
        dec_pairs dec_cached_repo ((sortByKey c.repos).map (fun p => (p.1, enc_cached_repo p.2)))
        with
        | some fs, some rs => some (⟨fs, rs⟩ : Cache)
        | _, _ => none) = _
    rw [hfs, hrs]
    show some (⟨(sortByKey c.files).map (fun p => (p.1, id p.2)),
        (sortByKey c.repos).map (fun p => (p.1, canon_cached_repo p.2))⟩ : Cache) = _
    rw [show (sortByKey c.files).map (fun p => (p.1, id p.2)) = sortByKey c.files from by
      have hfun : (fun (p : String × CachedFile) => (p.1, id p.2)) = id := funext (fun p => rfl)
      rw [hfun, List.map_id]]
    rfl
  · show (dict_eq_by (fun a b => a == b) c.files (canon_cache c).files &&
      dict_eq_by cached_repo_eqb c.repos (canon_cache c).repos) = true
    rw [Bool.and_eq_true]
    constructor
    · show dict_eq_by (fun a b => a == b) c.files (sortByKey c.files) = true
      have h := dict_eq_by_sorted (fun a b => a == b) id c.files hnd_files (fun p _ => by simp)
      rw [show (sortByKey c.files).map (fun p => (p.1, id p.2)) = sortByKey c.files from by
        have hfun : (fun (p : String × CachedFile) => (p.1, id p.2)) = id := funext (fun p => rfl)
        rw [hfun, List.map_id]] at h
      exact h
    · show dict_eq_by cached_repo_eqb c.repos
        ((sortByKey c.repos).map (fun p => (p.1, canon_cached_repo p.2))) = true
      exact dict_eq_by_sorted cached_repo_eqb canon_cached_repo c.repos hnd_repos
        (fun p hp => cached_repo_eqb_canon p.2 (hnd_assets p hp))

/-- Witness for claim C6: a concrete cache with unsorted keys, one
digest-less asset and one digest-bearing asset round-trips to its
canonical form, structurally equal to the original. -/
theorem c6_cache_roundtrip_witness :
    cache_load (cache_save ⟨[("b.apworld", ⟨1, 2, 3, "d"⟩), ("a.apworld", ⟨4, 5, 6, "e"⟩)],
        [("u/r", ⟨9, [⟨"v1", "t", "n", "bd", [("y", ⟨1, none⟩), ("x", ⟨2, some "h"⟩)]⟩]⟩)]⟩) =
      some (canon_cache ⟨[("b.apworld", ⟨1, 2, 3, "d"⟩), ("a.apworld", ⟨4, 5, 6, "e"⟩)],
        [("u/r", ⟨9, [⟨"v1", "t", "n", "bd", [("y", ⟨1, none⟩), ("x", ⟨2, some "h"⟩)]⟩]⟩)]⟩)
    ∧ cache_eqb ⟨[("b.apworld", ⟨1, 2, 3, "d"⟩), ("a.apworld", ⟨4, 5, 6, "e"⟩)],
        [("u/r", ⟨9, [⟨"v1", "t", "n", "bd", [("y", ⟨1, none⟩), ("x", ⟨2, some "h"⟩)]⟩]⟩)]⟩
      (canon_cache ⟨[("b.apworld", ⟨1, 2, 3, "d"⟩), ("a.apworld", ⟨4, 5, 6, "e"⟩)],
        [("u/r", ⟨9, [⟨"v1", "t", "n", "bd", [("y", ⟨1, none⟩), ("x", ⟨2, some "h"⟩)]⟩]⟩)]⟩) =
      true :=
  c6_cache_roundtrip ⟨[("b.apworld", ⟨1, 2, 3, "d"⟩), ("a.apworld", ⟨4, 5, 6, "e"⟩)],
      [("u/r", ⟨9, [⟨"v1", "t", "n", "bd", [("y", ⟨1, none⟩), ("x", ⟨2, some "h"⟩)]⟩]⟩)]⟩
    (by refine ⟨by decide, by decide, ?_⟩; intro p hp r hr; fin_cases hp; fin_cases hr; decide)
